import Mathlib

/-!
Shallow embedding of the Synchrotron component graph
(`SynchrotronComponentList.hpp` / `SynchrotronComponentFList.hpp`).

A component owns a fixed-width bitset `state` and two adjacency lists of
pointers to other components (`signalInput` = inputs, `slotOutput` = outputs).
We model the heap of components as a total map `Graph : Nat → Component` from
component ids (addresses) to component records, and each C++ member function
as a function `Graph → Graph` threading the heap explicitly.  The bitset is a
`Nat` (the value of the bits); `std::bitset<W>(v)` truncates to `v % 2^W` and
`operator|=` is `Nat.lor`.
-/

namespace Synchrotron

/-- One `SynchrotronComponent`: the internal bitset `state`, the list
`signalInput` of input component ids and the list `slotOutput` of output
component ids. -/
structure Component where
  state : Nat
  inputs : List Nat
  outputs : List Nat
deriving DecidableEq, Repr

/-- The heap of components: a component record for every id. -/
def Graph := Nat → Component

/-- Write component `comp` at id `c`. -/
def update (g : Graph) (c : Nat) (comp : Component) : Graph :=
  fun x => if x = c then comp else g x

/-- `SynchrotronComponentList(initial_value)`: state is
`std::bitset<W>(initial_value)`, both connection lists empty. -/
def mkComponent (W v : Nat) : Component :=
  ⟨v % 2 ^ W, [], []⟩

/-- `connectSlot(s)` of the `std::list` variant:
`this->slotOutput.push_back(s); s->signalInput.push_back(this)`. -/
def connectSlot (self s : Nat) (g : Graph) : Graph :=
  let g1 := update g self { g self with outputs := (g self).outputs ++ [s] }
  update g1 s { g1 s with inputs := (g1 s).inputs ++ [self] }

/-- `disconnectSlot(s)`:
`this->slotOutput.remove(s); s->signalInput.remove(this)`;
`std::list::remove` erases every element equal to its argument. -/
def disconnectSlot (self s : Nat) (g : Graph) : Graph :=
  let g1 := update g self { g self with outputs := (g self).outputs.filter (fun x => x ≠ s) }
  update g1 s { g1 s with inputs := (g1 s).inputs.filter (fun x => x ≠ self) }

/-- `addInput(input)`: `input.connectSlot(this)`. -/
def addInput (self input : Nat) (g : Graph) : Graph :=
  connectSlot input self g

/-- `removeInput(input)`: `input.disconnectSlot(this)`. -/
def removeInput (self input : Nat) (g : Graph) : Graph :=
  disconnectSlot input self g

/-- `addOutput(output)`: `this->connectSlot(&output)`. -/
def addOutput (self output : Nat) (g : Graph) : Graph :=
  connectSlot self output g

/-- `removeOutput(output)`: `this->disconnectSlot(&output)`. -/
def removeOutput (self output : Nat) (g : Graph) : Graph :=
  disconnectSlot self output g

/-- The destructor `~SynchrotronComponentList`:
for each output remove `self` from its inputs, then for each (remaining)
input remove `self` from its outputs, then clear both own lists. -/
def destroy (self : Nat) (g : Graph) : Graph :=
  let g1 := ((g self).outputs).foldl
    (fun h o => update h o { h o with inputs := (h o).inputs.filter (fun x => x ≠ self) }) g
  let g2 := ((g1 self).inputs).foldl
    (fun h i => update h i { h i with outputs := (h i).outputs.filter (fun x => x ≠ self) }) g1
  update g2 self { g2 self with inputs := [], outputs := [] }

/-- The first destructor loop in isolation: for each connection in
`slotOutput`, remove `self` from that connection's inputs. -/
def destroyPhase1 (self : Nat) (g : Graph) : Graph :=
  ((g self).outputs).foldl
    (fun h o => update h o { h o with inputs := (h o).inputs.filter (fun x => x ≠ self) }) g

/-- Both destructor loops: after phase 1, for each (remaining) sender in
`signalInput`, remove `self` from that sender's outputs. -/
def destroyPhase2 (self : Nat) (g : Graph) : Graph :=
  ((destroyPhase1 self g self).inputs).foldl
    (fun h i => update h i { h i with outputs := (h i).outputs.filter (fun x => x ≠ self) })
    (destroyPhase1 self g)

/-- The loop body of `tick()`: for each connection in `signalInput`, in list
order, `this->state |= connection->getState()`, reading states from the
evolving heap exactly as the C++ loop does. -/
def aggregate (c : Nat) (g : Graph) : Graph :=
  ((g c).inputs).foldl
    (fun h i => update h c { h c with state := (h c).state ||| (h i).state }) g

/-- The loop of `emit()`: `connection->tick()` for each connection of
`slotOutput`, in list order.  `tk` is the tick entry point (the recursive
knot is tied in `tickF` below); a `none` from a tick aborts with `none`. -/
def emitLoop (tk : Nat → Graph → Option (Graph × Nat)) :
    List Nat → Graph → Option (Graph × Nat)
  | [], g => some (g, 0)
  | o :: rest, g =>
    match tk o g with
    | none => none
    | some (g', n) =>
      match emitLoop tk rest g' with
      | none => none
      | some (g'', m) => some (g'', n + m)

/-- `tick()`: snapshot `prev`, OR every input's current state into `state`,
and if the state changed run the `emit()` loop over the outputs.  `fuel`
bounds the nesting depth of the recursive tick/emit cascade (`none` means
the bound was exceeded); the second component counts how many `emit()`
calls happened during the whole call. -/
def tickF : Nat → Nat → Graph → Option (Graph × Nat)
  | 0 => fun _ _ => none
  | fuel + 1 => fun c g =>
    let prev := (g c).state
    let g1 := aggregate c g
    if (g1 c).state ≠ prev then
      match emitLoop (tickF fuel) ((g1 c).outputs) g1 with
      | none => none
      | some (g2, n) => some (g2, n + 1)
    else
      some (g1, 0)

/-- The body of `emit()` for a component `c`: tick every output in list
order.  The wrapper `emitF` below also counts the `emit()` call itself. -/
def goEmit (fuel : Nat) (os : List Nat) (g : Graph) : Option (Graph × Nat) :=
  emitLoop (tickF fuel) os g

/-- `emit()` as a callable entry point: run the loop over the outputs; the
call itself is one `emit()` invocation. -/
def emitF (fuel c : Nat) (g : Graph) : Option (Graph × Nat) :=
  match goEmit fuel ((g c).outputs) g with
  | none => none
  | some (g', n) => some (g', n + 1)

/-- A sequence of external `tick()` calls, each given nesting budget
`fuel`. -/
def runTicks (fuel : Nat) : List Nat → Graph → Option Graph
  | [], g => some g
  | c :: rest, g =>
    match tickF fuel c g with
    | none => none
    | some (g', _) => runTicks fuel rest g'

/-- The state a default-constructed component starts with:
`mkComponent W 0`, i.e. zero state and empty connection lists. -/
def defaultComponent : Component :=
  ⟨0, [], []⟩

/-- A heap of default-constructed components. -/
def emptyHeap : Graph := fun _ => defaultComponent

/-- The copy constructor: `D` (at fresh id `d`) delegates to the default
constructor (zero state, empty lists), then replays the source's
`signalInput` through `addInput` and, if `duplicateAll_IO`, the source's
`slotOutput` through `addOutput`.  The second loop reads the source's
output list after the first loop ran, as the C++ range-for does. -/
def copyComponent (duplicateAll : Bool) (d a : Nat) (g : Graph) : Graph :=
  let g0 := update g d defaultComponent
  let g1 := ((g0 a).inputs).foldl (fun h s => addInput d s h) g0
  if duplicateAll then
    ((g1 a).outputs).foldl (fun h o => addOutput d o h) g1
  else g1

/-! ### The `forward_list` variant (`SynchrotronComponentFList.hpp`)

The only textual difference between the two headers is the container:
`std::list` with `push_back` versus `std::forward_list` with `push_front`.
`remove`, the destructor, `tick()` and `emit()` have identical bodies, so
`tickF`, `goEmit`, `emitF`, `disconnectSlot` and `destroy` above embed both
variants; only the connecting operations get `F` counterparts. -/

/-- `connectSlot(s)` of the `std::forward_list` variant:
`this->slotOutput.push_front(s); s->signalInput.push_front(this)`. -/
def connectSlotF (self s : Nat) (g : Graph) : Graph :=
  let g1 := update g self { g self with outputs := s :: (g self).outputs }
  update g1 s { g1 s with inputs := self :: (g1 s).inputs }

def addInputF (self input : Nat) (g : Graph) : Graph :=
  connectSlotF input self g

def addOutputF (self output : Nat) (g : Graph) : Graph :=
  connectSlotF self output g

/-- The copy constructor of the `forward_list` variant: as `copyComponent`
but wiring through the `push_front` connect. -/
def copyComponentF (duplicateAll : Bool) (d a : Nat) (g : Graph) : Graph :=
  let g0 := update g d defaultComponent
  let g1 := ((g0 a).inputs).foldl (fun h s => addInputF d s h) g0
  if duplicateAll then
    ((g1 a).outputs).foldl (fun h o => addOutputF d o h) g1
  else g1

/-! ### Relations and operation sequences -/

/-- Invariant I1: `a` appears in `b`'s inputs iff `b` appears in `a`'s
outputs. -/
def Symm (g : Graph) : Prop :=
  ∀ a b : Nat, a ∈ (g b).inputs ↔ b ∈ (g a).outputs

/-- Per-component state growth: every bit of `g` is still set in `g'`. -/
def stateLe (g g' : Graph) : Prop :=
  ∀ x, (g x).state ||| (g' x).state = (g' x).state

/-- Observable agreement of two heaps up to edge-list order: equal states,
permutation-equivalent input and output lists at every id. -/
def GraphPerm (g g' : Graph) : Prop :=
  ∀ x, (g x).state = (g' x).state ∧
    ((g x).inputs).Perm ((g' x).inputs) ∧
    ((g x).outputs).Perm ((g' x).outputs)

/-- One structural operation on the component graph. -/
inductive Op where
  | create (c W v : Nat)
  | addIn (a b : Nat)
  | addOut (a b : Nat)
  | remIn (a b : Nat)
  | remOut (a b : Nat)
  | del (a : Nat)
  | copy (duplicateAll : Bool) (d a : Nat)
deriving DecidableEq

/-- Run one operation in the `std::list` variant. -/
def stepL : Op → Graph → Graph
  | .create c W v, g => update g c (mkComponent W v)
  | .addIn a b, g => addInput a b g
  | .addOut a b, g => addOutput a b g
  | .remIn a b, g => removeInput a b g
  | .remOut a b, g => removeOutput a b g
  | .del a, g => destroy a g
  | .copy dup d a, g => copyComponent dup d a g

/-- Run one operation in the `std::forward_list` variant. -/
def stepF : Op → Graph → Graph
  | .create c W v, g => update g c (mkComponent W v)
  | .addIn a b, g => addInputF a b g
  | .addOut a b, g => addOutputF a b g
  | .remIn a b, g => removeInput a b g
  | .remOut a b, g => removeOutput a b g
  | .del a, g => destroy a g
  | .copy dup d a, g => copyComponentF dup d a g

def runL (ops : List Op) (g : Graph) : Graph :=
  ops.foldl (fun h op => stepL op h) g

def runF (ops : List Op) (g : Graph) : Graph :=
  ops.foldl (fun h op => stepF op h) g

/-! ### Scenario graphs for the concrete claims -/

/-- A chain `0 → 1 → ... → N-1` in which propagation has reached component
`k`: components `0..k` hold state `v`, the rest hold `0`; every component's
only input is its predecessor and only output its successor. -/
def chainUpTo (N v k : Nat) : Graph := fun i =>
  if i = 0 then ⟨v, [], if N ≤ 1 then [] else [1]⟩
  else if i < N then ⟨if i ≤ k then v else 0, [i - 1], if i = N - 1 then [] else [i + 1]⟩
  else defaultComponent

/-- The chain scenario of the fixed-point claim: component `0` seeded with
`v`, all others still zero. -/
def chainG (N v : Nat) : Graph :=
  chainUpTo N v 0

/-- Cycle scenario: components `0` and `1`, each the other's sole input;
`0` seeded with bit 0 (`1`), `1` seeded with bit 1 (`2`). -/
def gCycle : Graph :=
  addInput 1 0 (addInput 0 1
    (update (update emptyHeap 0 (mkComponent 4 1)) 1 (mkComponent 4 2)))

/-- Destructor scenario `A → B → C`: ids `0 → 1 → 2`, `A` seeded with 5. -/
def gABC : Graph :=
  addInput 2 1 (addInput 1 0 (update emptyHeap 0 (mkComponent 4 5)))

/-- `A → B → C` after `B` is destroyed. -/
def gABCdel : Graph :=
  destroy 1 gABC

/-- Copy-constructor counterexample scenario: a single component `0`,
state 3, registered as its own input. -/
def gSelfLoop : Graph :=
  addInput 0 0 (update emptyHeap 0 (mkComponent 4 3))

/-- Copy-constructor witness scenario: component `0` (state 3) with the
single input `2`. -/
def gCopySrc : Graph :=
  addInput 0 2 (update emptyHeap 0 (mkComponent 4 3))

/-- Source-node scenario: component `0` with nonzero state, one output,
no inputs. -/
def gSource : Graph :=
  addOutput 0 1 (update emptyHeap 0 (mkComponent 4 7))

/-! ### Basic heap lemmas -/

theorem update_read_same (g : Graph) (c : Nat) (comp : Component) :
    update g c comp c = comp := by
  simp [update]

theorem update_read_other (g : Graph) (c x : Nat) (comp : Component) (h : x ≠ c) :
    update g c comp x = g x := by
  simp [update, h]

theorem update_update (g : Graph) (c : Nat) (a b : Component) :
    update (update g c a) c b = update g c b := by
  funext x
  by_cases h : x = c <;> simp [update, h]

theorem update_self (g : Graph) (c : Nat) : update g c (g c) = g := by
  funext x
  by_cases h : x = c <;> simp [update, h]

/-! ### The aggregation step of `tick()` -/

/-- The value `tick()` leaves in `state`: the old state ORed with every
input's state, inputs read from the pre-tick heap. -/
def orInputs (c : Nat) (g : Graph) : Nat :=
  ((g c).inputs).foldl (fun s i => s ||| (g i).state) ((g c).state)

theorem foldl_lor_absorb (f : Nat → Nat) :
    ∀ (l : List Nat) (a : Nat),
      a ||| l.foldl (fun s i => s ||| f i) a = l.foldl (fun s i => s ||| f i) a
  | [], a => Nat.or_self a
  | x :: l, a => by
    have ih := foldl_lor_absorb f l (a ||| f x)
    simp only [List.foldl_cons]
    calc a ||| List.foldl (fun s i => s ||| f i) (a ||| f x) l
        = a ||| ((a ||| f x) ||| List.foldl (fun s i => s ||| f i) (a ||| f x) l) := by
          rw [ih]
      _ = ((a ||| a) ||| f x) ||| List.foldl (fun s i => s ||| f i) (a ||| f x) l := by
          rw [← Nat.lor_assoc, ← Nat.lor_assoc]
      _ = List.foldl (fun s i => s ||| f i) (a ||| f x) l := by
          rw [Nat.or_self, ih]

/-- The C++ loop reads states from the evolving heap (only `c`'s state
changes during the loop); this is the same as the static OR over the
pre-tick heap, because re-reading `c` only ORs in an already absorbed
value. -/
theorem aggregate_fold_eq (c : Nat) :
    ∀ (l : List Nat) (g : Graph) (acc : Nat), (g c).state ||| acc = acc →
      l.foldl (fun h i => update h c { h c with state := (h c).state ||| (h i).state })
        (update g c { g c with state := acc })
      = update g c { g c with state := l.foldl (fun s i => s ||| (g i).state) acc }
  | [], g, acc, _ => by simp
  | i :: l, g, acc, habs => by
    by_cases hic : i = c
    · have hacc : acc ||| (g c).state = acc := by
        rw [Nat.lor_comm]; exact habs
      simp only [hic, List.foldl_cons, update_read_same, update_update, Nat.or_self, hacc]
      exact aggregate_fold_eq c l g acc habs
    · have habs' : (g c).state ||| (acc ||| (g i).state) = acc ||| (g i).state := by
        rw [← Nat.lor_assoc, habs]
      simp only [List.foldl_cons, update_read_same,
        update_read_other g c i _ hic, update_update]
      exact aggregate_fold_eq c l g (acc ||| (g i).state) habs'

/-- `tick()`'s loop equals one write of `orInputs` into `c`'s state. -/
theorem aggregate_eq (c : Nat) (g : Graph) :
    aggregate c g = update g c { g c with state := orInputs c g } := by
  have h0 : update g c { g c with state := (g c).state } = g := by
    rw [show { g c with state := (g c).state } = g c from rfl, update_self]
  have := aggregate_fold_eq c ((g c).inputs) g ((g c).state) (Nat.or_self _)
  rw [h0] at this
  exact this

theorem orInputs_absorb (c : Nat) (g : Graph) :
    (g c).state ||| orInputs c g = orInputs c g :=
  foldl_lor_absorb (fun i => (g i).state) ((g c).inputs) ((g c).state)

/-! ### Characterizing one `tick()` -/

/-- With fuel left, `tick()` is: compute the OR of the old state with every
input's state; if it differs from the old state, write it and `emit()`,
otherwise leave the heap exactly as it was (and do not emit). -/
theorem tickF_succ_eq (fuel c : Nat) (g : Graph) :
    tickF (fuel + 1) c g =
      if orInputs c g = (g c).state then some (g, 0)
      else emitF fuel c (update g c { g c with state := orInputs c g }) := by
  by_cases h : orInputs c g = (g c).state
  · have hagg : aggregate c g = g := by
      rw [aggregate_eq, h]
      exact update_self g c
    simp only [tickF, hagg, if_pos h]
    rw [if_neg]
    simp [h]
  · have hout : (aggregate c g c).outputs = (g c).outputs := by
      rw [aggregate_eq, update_read_same]
    have hst : (aggregate c g c).state = orInputs c g := by
      rw [aggregate_eq, update_read_same]
    simp only [tickF, if_neg h]
    rw [if_pos]
    · simp only [emitF, goEmit, update_read_same, hout, aggregate_eq]
    · rw [hst]
      exact h

/-- C1: `tick()` snapshots the current state, ORs the current state of
every input into it, and calls `emit()` iff the result differs from the
snapshot; when unchanged it does not emit and the heap is exactly as
before, stopping propagation along this path. -/
theorem c1_tick_ors_inputs_and_emits_iff_changed (fuel c : Nat) (g : Graph) :
    (tickF (fuel + 1) c g =
      if orInputs c g = (g c).state then some (g, 0)
      else emitF fuel c (update g c { g c with state := orInputs c g })) ∧
    (∀ g' n, tickF (fuel + 1) c g = some (g', n) →
      (0 < n ↔ orInputs c g ≠ (g c).state)) := by
  refine ⟨tickF_succ_eq fuel c g, ?_⟩
  intro g' n hsome
  rw [tickF_succ_eq] at hsome
  by_cases h : orInputs c g = (g c).state
  · rw [if_pos h] at hsome
    obtain ⟨rfl, rfl⟩ : g = g' ∧ 0 = n := by
      constructor <;> [skip; skip] <;> injection hsome with h2 <;>
        [exact congrArg Prod.fst h2; exact congrArg Prod.snd h2]
    simp [h]
  · rw [if_neg h, emitF] at hsome
    rcases hgo : goEmit fuel ((update g c { g c with state := orInputs c g } c).outputs)
        (update g c { g c with state := orInputs c g }) with _ | ⟨g2, m⟩ <;>
      rw [hgo] at hsome
    · exact absurd hsome (by simp)
    · have : m + 1 = n := congrArg Prod.snd (Option.some.inj hsome)
      simp [← this, h]

/-- Witness for C1 at a concrete input: a source component whose state the
tick leaves unchanged, so no emit happens. -/
theorem c1_witness :
    ∃ g' n, tickF 4 0 gSource = some (g', n) ∧
      (0 < n ↔ orInputs 0 gSource ≠ (gSource 0).state) :=
  ⟨_, _, rfl, (c1_tick_ors_inputs_and_emits_iff_changed 3 0 gSource).2 _ _ rfl⟩

/-- C10: ticking a component with no inputs leaves its state (and the whole
heap) unchanged and never emits, whatever its state and outputs are. -/
theorem c10_tick_without_inputs_never_emits (fuel c : Nat) (g : Graph)
    (h : (g c).inputs = []) :
    tickF (fuel + 1) c g = some (g, 0) := by
  have hfix : orInputs c g = (g c).state := by
    rw [orInputs, h]
    rfl
  rw [tickF_succ_eq, if_pos hfix]

/-- Witness for C10: a seeded source node with one output; ticking it does
nothing. -/
theorem c10_witness : tickF 4 0 gSource = some (gSource, 0) :=
  c10_tick_without_inputs_never_emits 3 0 gSource rfl

/-! ### Pointwise effect of the four connection operations -/

theorem addInput_comp (a b : Nat) (g : Graph) (x : Nat) :
    addInput a b g x =
      { state := (g x).state,
        inputs := if x = a then (g a).inputs ++ [b] else (g x).inputs,
        outputs := if x = b then (g b).outputs ++ [a] else (g x).outputs } := by
  by_cases hxa : x = a <;> by_cases hxb : x = b
  · subst hxa
    subst hxb
    simp [addInput, connectSlot, update]
  · subst hxa
    simp [addInput, connectSlot, update, hxb, Ne.symm hxb]
  · subst hxb
    simp [addInput, connectSlot, update, hxa]
  · simp [addInput, connectSlot, update, hxa, hxb]

theorem addOutput_comp (a b : Nat) (g : Graph) (x : Nat) :
    addOutput a b g x =
      { state := (g x).state,
        inputs := if x = b then (g b).inputs ++ [a] else (g x).inputs,
        outputs := if x = a then (g a).outputs ++ [b] else (g x).outputs } := by
  by_cases hxa : x = a <;> by_cases hxb : x = b
  · subst hxa
    subst hxb
    simp [addOutput, connectSlot, update]
  · subst hxa
    simp [addOutput, connectSlot, update, hxb, Ne.symm hxb]
  · subst hxb
    simp [addOutput, connectSlot, update, hxa]
  · simp [addOutput, connectSlot, update, hxa, hxb]

theorem removeInput_comp (a b : Nat) (g : Graph) (x : Nat) :
    removeInput a b g x =
      { state := (g x).state,
        inputs := if x = a then (g a).inputs.filter (fun y => y ≠ b) else (g x).inputs,
        outputs := if x = b then (g b).outputs.filter (fun y => y ≠ a) else (g x).outputs } := by
  by_cases hxa : x = a <;> by_cases hxb : x = b
  · subst hxa
    subst hxb
    simp [removeInput, disconnectSlot, update]
  · subst hxa
    simp [removeInput, disconnectSlot, update, hxb, Ne.symm hxb]
  · subst hxb
    simp [removeInput, disconnectSlot, update, hxa]
  · simp [removeInput, disconnectSlot, update, hxa, hxb]

theorem removeOutput_comp (a b : Nat) (g : Graph) (x : Nat) :
    removeOutput a b g x =
      { state := (g x).state,
        inputs := if x = b then (g b).inputs.filter (fun y => y ≠ a) else (g x).inputs,
        outputs := if x = a then (g a).outputs.filter (fun y => y ≠ b) else (g x).outputs } := by
  by_cases hxa : x = a <;> by_cases hxb : x = b
  · subst hxa
    subst hxb
    simp [removeOutput, disconnectSlot, update]
  · subst hxa
    simp [removeOutput, disconnectSlot, update, hxb, Ne.symm hxb]
  · subst hxb
    simp [removeOutput, disconnectSlot, update, hxa]
  · simp [removeOutput, disconnectSlot, update, hxa, hxb]

theorem mem_filter_ne {l : List Nat} {x b : Nat} :
    x ∈ l.filter (fun y => y ≠ b) ↔ x ∈ l ∧ x ≠ b := by
  simp [List.mem_filter]

/-- C2: after `A.addInput(B)`, `B` is in `A`'s inputs and `A` is in `B`'s
outputs; after `A.removeInput(B)` neither holds; and the symmetry invariant
(`a ∈ inputs b ↔ b ∈ outputs a`) holds initially and is preserved by every
`addInput`/`addOutput`/`removeInput`/`removeOutput` call. -/
theorem c2_symmetry_invariant :
    Symm emptyHeap ∧
    (∀ g a b, Symm g → Symm (addInput a b g)) ∧
    (∀ g a b, Symm g → Symm (addOutput a b g)) ∧
    (∀ g a b, Symm g → Symm (removeInput a b g)) ∧
    (∀ g a b, Symm g → Symm (removeOutput a b g)) ∧
    (∀ g a b, b ∈ (addInput a b g a).inputs ∧ a ∈ (addInput a b g b).outputs) ∧
    (∀ g a b, b ∉ (removeInput a b g a).inputs ∧ a ∉ (removeInput a b g b).outputs) := by
  refine ⟨?_, ?_, ?_, ?_, ?_, ?_, ?_⟩
  · intro a b
    simp [emptyHeap, defaultComponent]
  · intro g a b hg x y
    by_cases hya : y = a <;> by_cases hxb : x = b <;>
      simp [addInput_comp, hya, hxb, hg x y, hg x a, hg b y, hg b a]
  · intro g a b hg x y
    by_cases hyb : y = b <;> by_cases hxa : x = a <;>
      simp [addOutput_comp, hyb, hxa, hg x y, hg x b, hg a y, hg a b]
  · intro g a b hg x y
    by_cases hya : y = a <;> by_cases hxb : x = b <;>
      simp [removeInput_comp, mem_filter_ne, hya, hxb, hg x y, hg x a, hg b y, hg b a]
  · intro g a b hg x y
    by_cases hyb : y = b <;> by_cases hxa : x = a <;>
      simp [removeOutput_comp, mem_filter_ne, hyb, hxa, hg x y, hg x b, hg a y, hg a b]
  · intro g a b
    constructor <;> simp [addInput_comp]
  · intro g a b
    constructor <;> simp [removeInput_comp, mem_filter_ne]

/-- Witness for C2: wiring one edge into the empty heap yields a symmetric
graph. -/
theorem c2_witness : Symm (addInput 0 1 emptyHeap) :=
  c2_symmetry_invariant.2.1 emptyHeap 0 1
    (fun a b => by simp [emptyHeap, defaultComponent])

theorem filter_ne_of_not_mem {l : List Nat} {b : Nat} (h : b ∉ l) :
    l.filter (fun y => y ≠ b) = l := by
  rw [List.filter_eq_self]
  intro x hx
  simp
  rintro rfl
  exact h hx

theorem count_filter_ne (l : List Nat) (b : Nat) :
    List.count b (l.filter (fun y => y ≠ b)) = 0 := by
  rw [List.count_eq_zero]
  simp [List.mem_filter]

theorem not_mem_filter_ne (l : List Nat) (b : Nat) :
    b ∉ l.filter (fun y => y ≠ b) := by
  simp [List.mem_filter]

theorem removeInput_self_inputs (a b : Nat) (g : Graph) :
    (removeInput a b g a).inputs = (g a).inputs.filter (fun y => y ≠ b) := by
  rw [removeInput_comp]
  simp

theorem removeInput_other_outputs (a b : Nat) (g : Graph) :
    (removeInput a b g b).outputs = (g b).outputs.filter (fun y => y ≠ a) := by
  rw [removeInput_comp]
  simp

theorem removeOutput_self_outputs (a b : Nat) (g : Graph) :
    (removeOutput a b g a).outputs = (g a).outputs.filter (fun y => y ≠ b) := by
  rw [removeOutput_comp]
  simp

theorem removeOutput_other_inputs (a b : Nat) (g : Graph) :
    (removeOutput a b g b).inputs = (g b).inputs.filter (fun y => y ≠ a) := by
  rw [removeOutput_comp]
  simp

/-- C8: one `removeInput`/`removeOutput` call deletes every matching
entry on both sides (`std::list::remove` removes all duplicates), and when
no matching edge exists the call returns the heap exactly unchanged, so
removal is an idempotent no-op rather than an error. -/
theorem c8_removal_complete_and_idempotent :
    (∀ g a b, List.count b ((removeInput a b g a).inputs) = 0 ∧
      List.count a ((removeInput a b g b).outputs) = 0) ∧
    (∀ g a b, List.count b ((removeOutput a b g a).outputs) = 0 ∧
      List.count a ((removeOutput a b g b).inputs) = 0) ∧
    (∀ g a b, b ∉ (g a).inputs → a ∉ (g b).outputs → removeInput a b g = g) ∧
    (∀ g a b, b ∉ (g a).inputs → a ∉ (g b).outputs → removeOutput b a g = g) ∧
    (∀ g a b, removeInput a b (removeInput a b g) = removeInput a b g) ∧
    (∀ g a b, removeOutput a b (removeOutput a b g) = removeOutput a b g) := by
  have hnoopIn : ∀ (g : Graph) (a b : Nat), b ∉ (g a).inputs → a ∉ (g b).outputs →
      removeInput a b g = g := by
    intro g a b hin hout
    funext x
    rw [removeInput_comp, filter_ne_of_not_mem hin, filter_ne_of_not_mem hout]
    by_cases hxa : x = a
    · by_cases hxb : x = b
      · have hba : b = a := by rw [← hxa, ← hxb]
        simp [hxa, hba]
      · have hab : ¬(a = b) := fun h => hxb (hxa.trans h)
        simp [hxa, hxb, hab]
    · by_cases hxb : x = b
      · have hba : ¬(b = a) := fun h => hxa (hxb.trans h)
        simp [hxa, hxb, hba]
      · simp [hxa, hxb]
  have hnoopOut : ∀ (g : Graph) (a b : Nat), b ∉ (g a).inputs → a ∉ (g b).outputs →
      removeOutput b a g = g := by
    intro g a b hin hout
    funext x
    rw [removeOutput_comp, filter_ne_of_not_mem hin, filter_ne_of_not_mem hout]
    by_cases hxa : x = a
    · by_cases hxb : x = b
      · have hba : b = a := by rw [← hxa, ← hxb]
        simp [hxa, hba]
      · have hab : ¬(a = b) := fun h => hxb (hxa.trans h)
        simp [hxa, hxb, hab]
    · by_cases hxb : x = b
      · have hba : ¬(b = a) := fun h => hxa (hxb.trans h)
        simp [hxa, hxb, hba]
      · simp [hxa, hxb]
  have hcountIn : ∀ (g : Graph) (a b : Nat),
      List.count b ((removeInput a b g a).inputs) = 0 ∧
      List.count a ((removeInput a b g b).outputs) = 0 := by
    intro g a b
    rw [removeInput_self_inputs, removeInput_other_outputs]
    exact ⟨count_filter_ne _ _, count_filter_ne _ _⟩
  refine ⟨hcountIn, ?_, hnoopIn, hnoopOut, ?_, ?_⟩
  · intro g a b
    rw [removeOutput_self_outputs, removeOutput_other_inputs]
    exact ⟨count_filter_ne _ _, count_filter_ne _ _⟩
  · intro g a b
    apply hnoopIn
    · rw [removeInput_self_inputs]
      exact not_mem_filter_ne _ _
    · rw [removeInput_other_outputs]
      exact not_mem_filter_ne _ _
  · intro g a b
    apply hnoopOut
    · rw [removeOutput_other_inputs]
      exact not_mem_filter_ne _ _
    · rw [removeOutput_self_outputs]
      exact not_mem_filter_ne _ _

/-- Witness for C8: removing an edge that is absent from the empty heap
changes nothing. -/
theorem c8_witness : removeInput 0 1 emptyHeap = emptyHeap :=
  c8_removal_complete_and_idempotent.2.2.1 emptyHeap 0 1
    (by simp [emptyHeap, defaultComponent]) (by simp [emptyHeap, defaultComponent])

/-- C4: in the two-component cycle (each the other's sole input, seeded
with bits 0 and 1), a propagation pass started by ticking either component
terminates within a small nesting budget and leaves both components with
exactly bits {0,1} set (state 3). -/
theorem c4_cycle_stabilizes :
    (∃ g n, tickF 5 0 gCycle = some (g, n) ∧ (g 0).state = 3 ∧ (g 1).state = 3) ∧
    (∃ g n, tickF 5 1 gCycle = some (g, n) ∧ (g 0).state = 3 ∧ (g 1).state = 3) :=
  ⟨⟨_, _, rfl, rfl, rfl⟩, ⟨_, _, rfl, rfl, rfl⟩⟩

/-- After destroying `B` in `A → B → C`, only `A`'s seeded state remains;
every component is fully disconnected. -/
theorem gABCdel_eval :
    ∀ x, gABCdel x = if x = 0 then ⟨5, [], []⟩ else defaultComponent := by
  intro x
  rcases x with _ | _ | _ | x <;> rfl

/-- C6: destroying `B` in the chain `A → B → C` leaves `A` with no outputs
and `C` with no inputs, no component anywhere still references `B` in its
inputs or outputs, and ticking `A` afterwards emits nothing and leaves `C`'s
state untouched. -/
theorem c6_destructor_severs_all_edges :
    (gABCdel 0).outputs = [] ∧ (gABCdel 2).inputs = [] ∧
    (∀ x, ((gABCdel x).inputs.contains 1) = false ∧
      ((gABCdel x).outputs.contains 1) = false) ∧
    (∃ g n, tickF 5 0 gABCdel = some (g, n) ∧ n = 0 ∧
      (g 2).state = (gABCdel 2).state) := by
  refine ⟨rfl, rfl, ?_, ⟨_, _, rfl, rfl, rfl⟩⟩
  intro x
  rw [gABCdel_eval x]
  by_cases h : x = 0 <;> simp [h, defaultComponent]

/-! ### Monotonicity of propagation -/

theorem stateLe_refl (g : Graph) : stateLe g g :=
  fun x => Nat.or_self ((g x).state)

theorem stateLe_trans {g1 g2 g3 : Graph} (h12 : stateLe g1 g2) (h23 : stateLe g2 g3) :
    stateLe g1 g3 := by
  intro x
  calc (g1 x).state ||| (g3 x).state
      = (g1 x).state ||| ((g2 x).state ||| (g3 x).state) := by rw [h23 x]
    _ = ((g1 x).state ||| (g2 x).state) ||| (g3 x).state := by rw [Nat.lor_assoc]
    _ = (g2 x).state ||| (g3 x).state := by rw [h12 x]
    _ = (g3 x).state := h23 x

theorem stateLe_aggregate (c : Nat) (g : Graph) : stateLe g (aggregate c g) := by
  intro x
  rw [aggregate_eq]
  by_cases h : x = c
  · rw [h, update_read_same]
    exact orInputs_absorb c g
  · rw [update_read_other g c x _ h]
    exact Nat.or_self _

theorem emitLoop_mono (tk : Nat → Graph → Option (Graph × Nat))
    (htk : ∀ c g res, tk c g = some res → stateLe g res.1) :
    ∀ (os : List Nat) (g : Graph) (res : Graph × Nat),
      emitLoop tk os g = some res → stateLe g res.1
  | [], g, res => by
    intro h
    obtain rfl : (g, 0) = res := Option.some.inj h
    exact stateLe_refl g
  | o :: rest, g, res => by
    intro h
    simp only [emitLoop] at h
    split at h
    · exact absurd h (by simp)
    · rename_i g1 n htk1
      split at h
      · exact absurd h (by simp)
      · rename_i g2 m hrest
        obtain rfl : (g2, n + m) = res := Option.some.inj h
        exact stateLe_trans (htk o g (g1, n) htk1)
          (emitLoop_mono tk htk rest g1 (g2, m) hrest)

theorem tickF_mono :
    ∀ (fuel c : Nat) (g : Graph) (res : Graph × Nat),
      tickF fuel c g = some res → stateLe g res.1
  | 0, c, g, res => by
    intro h
    exact absurd h (by simp [tickF])
  | fuel + 1, c, g, res => by
    intro h
    simp only [tickF] at h
    by_cases hch : ((aggregate c g) c).state ≠ (g c).state
    · rw [if_pos hch] at h
      split at h
      · exact absurd h (by simp)
      · rename_i g2 n hloop
        obtain rfl : (g2, n + 1) = res := Option.some.inj h
        exact stateLe_trans (stateLe_aggregate c g)
          (emitLoop_mono (tickF fuel) (tickF_mono fuel) _ _ (g2, n) hloop)
    · rw [if_neg hch] at h
      obtain rfl : (aggregate c g, 0) = res := Option.some.inj h
      exact stateLe_aggregate c g

theorem runTicks_mono :
    ∀ (fuel : Nat) (cs : List Nat) (g g' : Graph),
      runTicks fuel cs g = some g' → stateLe g g'
  | fuel, [], g, g' => by
    intro h
    obtain rfl : g = g' := Option.some.inj h
    exact stateLe_refl g
  | fuel, c :: rest, g, g' => by
    intro h
    simp only [runTicks] at h
    split at h
    · exact absurd h (by simp)
    · rename_i g1 n htick
      exact stateLe_trans (tickF_mono fuel c g (g1, n) htick)
        (runTicks_mono fuel rest g1 g' h)

theorem stateLe_testBit {g g' : Graph} (h : stateLe g g') (x b : Nat)
    (hb : (g x).state.testBit b = true) : (g' x).state.testBit b = true := by
  rw [← h x, Nat.testBit_lor, hb]
  rfl

/-- C5: propagation only grows states: every bit set in any component
before a `tick()` (or any sequence of `tick()` calls) is still set
afterwards; `tick` never clears a bit. -/
theorem c5_states_never_lose_bits :
    (∀ fuel c g g' n, tickF fuel c g = some (g', n) →
      ∀ x b, (g x).state.testBit b = true → (g' x).state.testBit b = true) ∧
    (∀ fuel cs g g', runTicks fuel cs g = some g' →
      ∀ x b, (g x).state.testBit b = true → (g' x).state.testBit b = true) := by
  constructor
  · intro fuel c g g' n h x b hb
    exact stateLe_testBit (tickF_mono fuel c g (g', n) h) x b hb
  · intro fuel cs g g' h x b hb
    exact stateLe_testBit (runTicks_mono fuel cs g g' h) x b hb

/-- Witness for C5: in the propagation pass over the cycle scenario, bit 0
of component 0 survives. -/
theorem c5_witness :
    ∃ g' n, tickF 5 0 gCycle = some (g', n) ∧ (g' 0).state.testBit 0 = true :=
  ⟨_, _, rfl, c5_states_never_lose_bits.1 5 0 gCycle _ _ rfl 0 0 rfl⟩

/-! ### Propagation along a chain -/

/-- Shared helper behind the no-input case of `tick()`. -/
theorem tick_noop_of_no_inputs (fuel c : Nat) (g : Graph) (h : (g c).inputs = []) :
    tickF (fuel + 1) c g = some (g, 0) := by
  have hfix : orInputs c g = (g c).state := by
    rw [orInputs, h]
    rfl
  rw [tickF_succ_eq, if_pos hfix]

theorem chainUpTo_mid (N v k j : Nat) (h1 : 1 ≤ j) (h2 : j < N) :
    chainUpTo N v k j =
      ⟨if j ≤ k then v else 0, [j - 1], if j = N - 1 then [] else [j + 1]⟩ := by
  have hj0 : ¬(j = 0) := by omega
  simp [chainUpTo, hj0, h2]

theorem chain_prev_state (N v j : Nat) (h1 : 1 ≤ j) (h2 : j < N) :
    (chainUpTo N v (j - 1) (j - 1)).state = v := by
  by_cases hj1 : j - 1 = 0
  · rw [hj1]
    simp [chainUpTo]
  · rw [chainUpTo_mid N v (j - 1) (j - 1) (by omega) (by omega)]
    simp

theorem chain_orInputs (N v j : Nat) (h1 : 1 ≤ j) (h2 : j < N) :
    orInputs j (chainUpTo N v (j - 1)) = v := by
  have hmid := chainUpTo_mid N v (j - 1) j h1 h2
  have hle : ¬(j ≤ j - 1) := by omega
  rw [orInputs, hmid]
  simp only [if_neg hle, List.foldl_cons, List.foldl_nil]
  rw [chain_prev_state N v j h1 h2]
  exact Nat.zero_or v

theorem chain_agg_update (N v j : Nat) (h1 : 1 ≤ j) (h2 : j < N) :
    update (chainUpTo N v (j - 1)) j
        { chainUpTo N v (j - 1) j with state := orInputs j (chainUpTo N v (j - 1)) }
      = chainUpTo N v j := by
  funext x
  by_cases hxj : x = j
  · rw [hxj, update_read_same, chainUpTo_mid N v (j - 1) j h1 h2,
      chainUpTo_mid N v j j h1 h2, chain_orInputs N v j h1 h2]
    simp
  · rw [update_read_other _ _ _ _ hxj]
    by_cases hx0 : x = 0
    · simp [chainUpTo, hx0]
    · by_cases hxN : x < N
      · simp [chainUpTo, hx0, hxN, show x ≤ j - 1 ↔ x ≤ j from by omega]
      · simp [chainUpTo, hx0, hxN]

theorem chain_state_zero (N v j : Nat) (h1 : 1 ≤ j) (h2 : j < N) :
    (chainUpTo N v (j - 1) j).state = 0 := by
  rw [chainUpTo_mid N v (j - 1) j h1 h2]
  simp [show ¬(j ≤ j - 1) from by omega]

/-- Ticking component `j` of a chain whose propagation has reached `j - 1`
pushes the seeded value down to the end of the chain, emitting once per
component that changed. -/
theorem chain_tick_prop (N v : Nat) (hv : 0 < v) :
    ∀ d j, 1 ≤ j → j + d = N - 1 →
      tickF (d + 2) j (chainUpTo N v (j - 1)) = some (chainUpTo N v (N - 1), d + 1) := by
  intro d
  induction d with
  | zero =>
    intro j hj hjd
    have hjlt : j < N := by omega
    have hjN : j = N - 1 := by omega
    have hne : orInputs j (chainUpTo N v (j - 1)) ≠ (chainUpTo N v (j - 1) j).state := by
      rw [chain_orInputs N v j hj hjlt, chain_state_zero N v j hj hjlt]
      omega
    rw [show (0 : Nat) + 2 = 1 + 1 from rfl, tickF_succ_eq, if_neg hne,
      chain_agg_update N v j hj hjlt, hjN]
    have houts : (chainUpTo N v (N - 1) (N - 1)).outputs = [] := by
      rw [chainUpTo_mid N v (N - 1) (N - 1) (by omega) (by omega)]
      simp
    simp only [emitF, goEmit, houts, emitLoop]
  | succ d ih =>
    intro j hj hjd
    have hjlt : j < N := by omega
    have hne : orInputs j (chainUpTo N v (j - 1)) ≠ (chainUpTo N v (j - 1) j).state := by
      rw [chain_orInputs N v j hj hjlt, chain_state_zero N v j hj hjlt]
      omega
    rw [show d + 1 + 2 = (d + 2) + 1 from rfl, tickF_succ_eq, if_neg hne,
      chain_agg_update N v j hj hjlt]
    have houts : (chainUpTo N v j j).outputs = [j + 1] := by
      rw [chainUpTo_mid N v j j hj hjlt]
      simp [show ¬(j = N - 1) from by omega]
    have hih := ih (j + 1) (by omega) (by omega)
    rw [show j + 1 - 1 = j from rfl] at hih
    simp only [emitF, goEmit, houts, emitLoop, hih]

/-- C3 counterexample: in a 2-chain seeded with 1 at component 0, calling
`tick()` on component 0 (which has no inputs) emits nothing and leaves
component 1 at state 0, not at the seeded state. -/
theorem c3_counterexample_tick_does_not_propagate :
    ∃ g n, tickF 5 0 (chainG 2 1) = some (g, n) ∧ n = 0 ∧ (g 1).state = 0 ∧
      (g 0).state = 1 :=
  ⟨_, _, rfl, rfl, rfl, rfl⟩

/-- C3 (amended): starting the pass with `emit()` on component 0 of the
chain propagates the seeded state to all `N` components (with exactly `N`
`emit()` calls) and terminates; ticking component 0 afterwards emits
nothing and changes nothing. -/
theorem c3_amended_emit_propagates_chain (N v : Nat) (hN : 1 ≤ N) (hv : 0 < v) :
    ∃ g', emitF N 0 (chainG N v) = some (g', N) ∧
      (∀ i, i < N → (g' i).state = v) ∧
      tickF N 0 g' = some (g', 0) := by
  have hstates : ∀ i, i < N → ((chainUpTo N v (N - 1)) i).state = v := by
    intro i hi
    by_cases hi0 : i = 0
    · simp [chainUpTo, hi0]
    · rw [chainUpTo_mid N v (N - 1) i (by omega) hi]
      simp [show i ≤ N - 1 from by omega]
  have hzeroin : ∀ k, ((chainUpTo N v k) 0).inputs = [] := by
    intro k
    simp [chainUpTo]
  by_cases hN1 : N = 1
  · subst hN1
    refine ⟨chainG 1 v, ?_, ?_, ?_⟩
    · have houts : ((chainG 1 v) 0).outputs = [] := by
        simp [chainG, chainUpTo]
      simp only [emitF, goEmit, houts, emitLoop]
    · intro i hi
      have hi0 : i = 0 := by omega
      rw [hi0]
      simp [chainG, chainUpTo]
    · exact tick_noop_of_no_inputs 0 0 (chainG 1 v) (hzeroin 0)
  · have hmain := chain_tick_prop N v hv (N - 2) 1 (by omega) (by omega)
    have hfix : N - 2 + 2 = N := by omega
    rw [hfix] at hmain
    refine ⟨chainUpTo N v (N - 1), ?_, hstates, ?_⟩
    · have houts : ((chainG N v) 0).outputs = [1] := by
        simp [chainG, chainUpTo, show ¬(N ≤ 1) from by omega]
      rw [show (1 : Nat) - 1 = 0 from rfl] at hmain
      simp only [chainG] at houts hmain ⊢
      simp only [emitF, goEmit, houts, emitLoop, hmain]
      congr 1
      rw [show N - 2 + 1 + 0 + 1 = N from by omega]
    · rw [show N = N - 1 + 1 from by omega]
      exact tick_noop_of_no_inputs (N - 1) 0 _ (hzeroin (N - 1))

/-- Witness for the amended C3 on a concrete 3-chain seeded with 2. -/
theorem c3_witness :
    ∃ g', emitF 3 0 (chainG 3 2) = some (g', 3) ∧
      (∀ i, i < 3 → (g' i).state = 2) ∧ tickF 3 0 g' = some (g', 0) :=
  c3_amended_emit_propagates_chain 3 2 (by decide) (by decide)

/-! ### Replaying inputs in the copy constructor -/

/-- Effect of replaying a list of sources `xs` through `addInput d _`
(the input-copy loop of the copy constructor), provided `d` itself is not
among the sources: `d` gains exactly `xs` as new inputs (keeping state and
outputs), components outside `xs` are untouched, and every source keeps its
state and inputs but gains `d` among its outputs. -/
theorem copy_replay (d : Nat) :
    ∀ (xs : List Nat) (g : Graph), d ∉ xs →
      ((xs.foldl (fun h s => addInput d s h) g) d =
        { g d with inputs := (g d).inputs ++ xs }) ∧
      (∀ y, y ≠ d → y ∉ xs → (xs.foldl (fun h s => addInput d s h) g) y = g y) ∧
      (∀ y, y ≠ d → y ∈ xs →
        ((xs.foldl (fun h s => addInput d s h) g) y).inputs = (g y).inputs ∧
        ((xs.foldl (fun h s => addInput d s h) g) y).state = (g y).state ∧
        d ∈ ((xs.foldl (fun h s => addInput d s h) g) y).outputs)
  | [], g, _ => by
    refine ⟨by simp, ?_, ?_⟩
    · intro y _ _
      rfl
    · intro y _ hy
      exact absurd hy (by simp)
  | x :: xs, g, hd => by
    have hxd : x ≠ d := fun h => hd (h ▸ List.mem_cons_self x xs)
    have hdxs : d ∉ xs := fun h => hd (List.mem_cons_of_mem x h)
    have ih := copy_replay d xs (addInput d x g) hdxs
    have hg1d : (addInput d x g) d = ⟨(g d).state, (g d).inputs ++ [x], (g d).outputs⟩ := by
      rw [addInput_comp]
      simp [Ne.symm hxd]
    have hg1x : (addInput d x g) x = ⟨(g x).state, (g x).inputs, (g x).outputs ++ [d]⟩ := by
      rw [addInput_comp]
      simp [hxd]
    have hg1y : ∀ y, y ≠ d → y ≠ x → (addInput d x g) y = g y := by
      intro y hyd hyx
      rw [addInput_comp]
      simp [hyd, hyx]
    refine ⟨?_, ?_, ?_⟩
    · rw [List.foldl_cons, ih.1, hg1d]
      simp
    · intro y hyd hyxs
      rw [List.foldl_cons, ih.2.1 y hyd (fun h => hyxs (List.mem_cons_of_mem x h)),
        hg1y y hyd (fun h => hyxs (h ▸ List.mem_cons_self x xs))]
    · intro y hyd hyxs
      rcases List.mem_cons.mp hyxs with hyx | hyxs2
      · by_cases hxxs : x ∈ xs
        · have h3 := ih.2.2 y hyd (hyx ▸ hxxs)
          rw [List.foldl_cons]
          refine ⟨?_, ?_, h3.2.2⟩
          · rw [h3.1, hyx, hg1x]
          · rw [h3.2.1, hyx, hg1x]
        · have h2 := ih.2.1 y hyd (by rw [hyx]; exact hxxs)
          rw [List.foldl_cons, h2, hyx, hg1x]
          exact ⟨rfl, rfl, by simp⟩
      · have h3 := ih.2.2 y hyd hyxs2
        by_cases hyx : y = x
        · rw [List.foldl_cons]
          refine ⟨?_, ?_, h3.2.2⟩
          · rw [h3.1, hyx, hg1x]
          · rw [h3.2.1, hyx, hg1x]
        · rw [List.foldl_cons]
          refine ⟨?_, ?_, h3.2.2⟩
          · rw [h3.1, hg1y y hyd hyx]
          · rw [h3.2.1, hg1y y hyd hyx]

/-- C7 counterexample: for a component that lists itself as an input,
an inputs-only copy (`duplicateAll_IO = false`) still pushes the new copy
into the source's outputs (through the replayed `addInput`), so the source
is affected even though outputs were not requested to be duplicated. -/
theorem c7_counterexample_self_loop_copy_affects_source :
    (gSelfLoop 0).outputs = [0] ∧
    (copyComponent false 1 0 gSelfLoop 0).outputs = [0, 1] :=
  ⟨rfl, rfl⟩

/-- C7 (amended): for a fresh id `d` and a source `a` that is not its own
input, the inputs-only copy gives `d` zero state, exactly `a`'s input list,
and no outputs; `a` itself is completely unchanged (in particular its
outputs do not gain `d`); and every source in `a`'s input list gains `d`
as a new output. -/
theorem c7_amended_copy_semantics (g : Graph) (a d : Nat) (hda : d ≠ a)
    (hdfresh : d ∉ (g a).inputs) (hself : a ∉ (g a).inputs) :
    (copyComponent false d a g d).state = 0 ∧
    (copyComponent false d a g d).inputs = (g a).inputs ∧
    (copyComponent false d a g d).outputs = [] ∧
    copyComponent false d a g a = g a ∧
    (∀ s, s ∈ (g a).inputs → d ∈ (copyComponent false d a g s).outputs) := by
  have hg0a : (update g d defaultComponent) a = g a :=
    update_read_other g d a defaultComponent (Ne.symm hda)
  have hunfold : copyComponent false d a g =
      ((update g d defaultComponent) a).inputs.foldl (fun h s => addInput d s h)
        (update g d defaultComponent) := rfl
  have hrep := copy_replay d ((g a).inputs) (update g d defaultComponent) hdfresh
  rw [hunfold, hg0a]
  have hg0d : (update g d defaultComponent) d = defaultComponent :=
    update_read_same g d defaultComponent
  refine ⟨?_, ?_, ?_, ?_, ?_⟩
  · rw [hrep.1, hg0d]
    rfl
  · rw [hrep.1, hg0d]
    simp [defaultComponent]
  · rw [hrep.1, hg0d]
    rfl
  · rw [hrep.2.1 a (Ne.symm hda) hself, hg0a]
  · intro s hs
    have hsd : s ≠ d := fun h => hdfresh (h ▸ hs)
    exact (hrep.2.2 s hsd hs).2.2

/-- Witness for the amended C7: copying component 0 (state 3, single
input 2) to the fresh id 1. -/
theorem c7_witness :
    (copyComponent false 1 0 gCopySrc 1).state = 0 ∧
    (copyComponent false 1 0 gCopySrc 1).inputs = (gCopySrc 0).inputs ∧
    (copyComponent false 1 0 gCopySrc 1).outputs = [] ∧
    copyComponent false 1 0 gCopySrc 0 = gCopySrc 0 ∧
    (∀ s, s ∈ (gCopySrc 0).inputs → 1 ∈ (copyComponent false 1 0 gCopySrc s).outputs) :=
  c7_amended_copy_semantics gCopySrc 0 1 (by decide) (by decide) (by decide)

/-! ### Pointwise effect of the `forward_list` connection operations -/

theorem addInputF_comp (a b : Nat) (g : Graph) (x : Nat) :
    addInputF a b g x =
      { state := (g x).state,
        inputs := if x = a then b :: (g a).inputs else (g x).inputs,
        outputs := if x = b then a :: (g b).outputs else (g x).outputs } := by
  by_cases hxa : x = a <;> by_cases hxb : x = b
  · subst hxa
    subst hxb
    simp [addInputF, connectSlotF, update]
  · subst hxa
    simp [addInputF, connectSlotF, update, hxb, Ne.symm hxb]
  · subst hxb
    simp [addInputF, connectSlotF, update, hxa]
  · simp [addInputF, connectSlotF, update, hxa, hxb]

theorem addOutputF_comp (a b : Nat) (g : Graph) (x : Nat) :
    addOutputF a b g x =
      { state := (g x).state,
        inputs := if x = b then a :: (g b).inputs else (g x).inputs,
        outputs := if x = a then b :: (g a).outputs else (g x).outputs } := by
  by_cases hxa : x = a <;> by_cases hxb : x = b
  · subst hxa
    subst hxb
    simp [addOutputF, connectSlotF, update]
  · subst hxa
    simp [addOutputF, connectSlotF, update, hxb, Ne.symm hxb]
  · subst hxb
    simp [addOutputF, connectSlotF, update, hxa]
  · simp [addOutputF, connectSlotF, update, hxa, hxb]

/-! ### Exact effect of the copy constructor replay loops -/

/-- Replaying sources `xs` through `addInput d _` (`std::list` variant):
`d`'s input list is extended by `xs` in order, and every component gains
one appended `d` in its outputs per occurrence in `xs`. -/
theorem replay_in_L (d : Nat) :
    ∀ (xs : List Nat) (g : Graph) (y : Nat),
      (xs.foldl (fun h s => addInput d s h) g) y =
        { state := (g y).state,
          inputs := if y = d then (g d).inputs ++ xs else (g y).inputs,
          outputs := (g y).outputs ++ List.replicate (xs.count y) d }
  | [], g, y => by
    by_cases hyd : y = d <;> simp [hyd]
  | x :: xs, g, y => by
    rw [List.foldl_cons, replay_in_L d xs (addInput d x g) y,
      addInput_comp d x g y, addInput_comp d x g d]
    by_cases hyd : y = d <;> by_cases hyx : y = x
    · simp only [hyd, hyx, if_pos rfl]
      have hxd : x = d := by rw [← hyd, hyx]
      simp [hxd, List.count_cons, List.append_assoc]
      rw [← List.replicate_succ, List.replicate_succ' ]
    · have hxd : ¬(x = d) := fun h => hyx (hyd.trans h.symm)
      simp only [hyd, if_pos rfl, if_neg hxd]
      have hcnt : (x :: xs).count d = xs.count d := by
        simp [List.count_cons, fun h => hxd h]
      simp [hcnt, List.append_assoc]
      exact fun h => absurd h.symm hxd
    · have hxd : ¬(x = d) := fun h => hyd (hyx.trans h)
      simp [hyd, hyx, hxd, List.count_cons, List.append_assoc, List.replicate_succ]
    · have hxy : ¬(x = y) := fun h => hyx h.symm
      simp [hyd, hyx, hxy, List.count_cons]

theorem replicate_append_cons (n d : Nat) (l : List Nat) :
    List.replicate n d ++ (d :: l) = List.replicate (n + 1) d ++ l := by
  rw [show d :: l = [d] ++ l from rfl, ← List.append_assoc, ← List.replicate_succ' ]

/-- Replaying sources `xs` through `addInput d _` (`forward_list` variant):
`d`'s input list is extended in front by `xs` reversed, and every component
gains one front-inserted `d` in its outputs per occurrence in `xs`. -/
theorem replay_in_F (d : Nat) :
    ∀ (xs : List Nat) (g : Graph) (y : Nat),
      (xs.foldl (fun h s => addInputF d s h) g) y =
        { state := (g y).state,
          inputs := if y = d then xs.reverse ++ (g d).inputs else (g y).inputs,
          outputs := List.replicate (xs.count y) d ++ (g y).outputs }
  | [], g, y => by
    by_cases hyd : y = d <;> simp [hyd]
  | x :: xs, g, y => by
    rw [List.foldl_cons, replay_in_F d xs (addInputF d x g) y,
      addInputF_comp d x g y, addInputF_comp d x g d]
    by_cases hyd : y = d <;> by_cases hyx : y = x
    · have hxd : x = d := by rw [← hyd, hyx]
      simp [hyd, hyx, hxd, List.count_cons, List.append_assoc,
        replicate_append_cons]
    · have hxd : ¬(x = d) := fun h => hyx (hyd.trans h.symm)
      have hdx : ¬(d = x) := fun h => hxd h.symm
      have hcnt : (x :: xs).count d = xs.count d := by
        simp [List.count_cons, fun h => hxd h]
      simp [hyd, hdx, hcnt, List.append_assoc]
    · have hxd : ¬(x = d) := fun h => hyd (hyx.trans h)
      simp [hyd, hyx, hxd, List.count_cons, replicate_append_cons]
    · have hxy : ¬(x = y) := fun h => hyx h.symm
      simp [hyd, hyx, hxy, List.count_cons]

/-- Replaying subscribers `ys` through `addOutput d _` (`std::list`
variant): `d`'s output list is extended by `ys` in order, and every
component gains one appended `d` in its inputs per occurrence in `ys`. -/
theorem replay_out_L (d : Nat) :
    ∀ (ys : List Nat) (g : Graph) (y : Nat),
      (ys.foldl (fun h o => addOutput d o h) g) y =
        { state := (g y).state,
          inputs := (g y).inputs ++ List.replicate (ys.count y) d,
          outputs := if y = d then (g d).outputs ++ ys else (g y).outputs }
  | [], g, y => by
    by_cases hyd : y = d <;> simp [hyd]
  | x :: ys, g, y => by
    rw [List.foldl_cons, replay_out_L d ys (addOutput d x g) y,
      addOutput_comp d x g y, addOutput_comp d x g d]
    by_cases hyd : y = d <;> by_cases hyx : y = x
    · have hxd : x = d := by rw [← hyd, hyx]
      simp [hyd, hyx, hxd, List.count_cons, List.append_assoc]
      rw [← List.replicate_succ, List.replicate_succ' ]
    · have hxd : ¬(x = d) := fun h => hyx (hyd.trans h.symm)
      have hcnt : (x :: ys).count d = ys.count d := by
        simp [List.count_cons, fun h => hxd h]
      simp [hyd, hcnt, List.append_assoc]
      exact fun h => absurd h.symm hxd
    · have hxd : ¬(x = d) := fun h => hyd (hyx.trans h)
      simp [hyd, hyx, hxd, List.count_cons, List.append_assoc, List.replicate_succ]
    · have hxy : ¬(x = y) := fun h => hyx h.symm
      simp [hyd, hyx, hxy, List.count_cons]

/-- Replaying subscribers `ys` through `addOutput d _` (`forward_list`
variant). -/
theorem replay_out_F (d : Nat) :
    ∀ (ys : List Nat) (g : Graph) (y : Nat),
      (ys.foldl (fun h o => addOutputF d o h) g) y =
        { state := (g y).state,
          inputs := List.replicate (ys.count y) d ++ (g y).inputs,
          outputs := if y = d then ys.reverse ++ (g d).outputs else (g y).outputs }
  | [], g, y => by
    by_cases hyd : y = d <;> simp [hyd]
  | x :: ys, g, y => by
    rw [List.foldl_cons, replay_out_F d ys (addOutputF d x g) y,
      addOutputF_comp d x g y, addOutputF_comp d x g d]
    by_cases hyd : y = d <;> by_cases hyx : y = x
    · have hxd : x = d := by rw [← hyd, hyx]
      simp [hyd, hyx, hxd, List.count_cons, List.append_assoc,
        replicate_append_cons]
    · have hxd : ¬(x = d) := fun h => hyx (hyd.trans h.symm)
      have hdx : ¬(d = x) := fun h => hxd h.symm
      have hcnt : (x :: ys).count d = ys.count d := by
        simp [List.count_cons, fun h => hxd h]
      simp [hyd, hdx, hcnt, List.append_assoc]
    · have hxd : ¬(x = d) := fun h => hyd (hyx.trans h)
      simp [hyd, hyx, hxd, List.count_cons, replicate_append_cons]
    · have hxy : ¬(x = y) := fun h => hyx h.symm
      simp [hyd, hyx, hxy, List.count_cons]

/-! ### The two variants agree up to edge-list order -/

theorem filter_ne_idem (l : List Nat) (s : Nat) :
    (l.filter (fun z => z ≠ s)).filter (fun z => z ≠ s) = l.filter (fun z => z ≠ s) := by
  rw [List.filter_filter]
  congr 1
  funext z
  exact Bool.and_self _

theorem filter_fold_inputs (self : Nat) :
    ∀ (os : List Nat) (g : Graph) (y : Nat),
      (os.foldl
          (fun h o => update h o { h o with inputs := (h o).inputs.filter (fun x => x ≠ self) })
          g) y
      = if y ∈ os then { g y with inputs := (g y).inputs.filter (fun x => x ≠ self) }
        else g y
  | [], g, y => by simp
  | o :: os, g, y => by
    rw [List.foldl_cons, filter_fold_inputs self os _ y]
    by_cases hyos : y ∈ os
    · rw [if_pos hyos, if_pos (List.mem_cons_of_mem o hyos)]
      by_cases hyo : y = o
      · rw [hyo, update_read_same]
        simp [filter_ne_idem]
      · rw [update_read_other _ _ _ _ hyo]
    · rw [if_neg hyos]
      by_cases hyo : y = o
      · rw [if_pos (by rw [hyo]; exact List.mem_cons_self o os), hyo, update_read_same]
      · rw [if_neg (fun hmem => (List.mem_cons.mp hmem).elim hyo hyos),
          update_read_other _ _ _ _ hyo]

theorem filter_fold_outputs (self : Nat) :
    ∀ (is : List Nat) (g : Graph) (y : Nat),
      (is.foldl
          (fun h i => update h i { h i with outputs := (h i).outputs.filter (fun x => x ≠ self) })
          g) y
      = if y ∈ is then { g y with outputs := (g y).outputs.filter (fun x => x ≠ self) }
        else g y
  | [], g, y => by simp
  | o :: is, g, y => by
    rw [List.foldl_cons, filter_fold_outputs self is _ y]
    by_cases hyos : y ∈ is
    · rw [if_pos hyos, if_pos (List.mem_cons_of_mem o hyos)]
      by_cases hyo : y = o
      · rw [hyo, update_read_same]
        simp [filter_ne_idem]
      · rw [update_read_other _ _ _ _ hyo]
    · rw [if_neg hyos]
      by_cases hyo : y = o
      · rw [if_pos (by rw [hyo]; exact List.mem_cons_self o is), hyo, update_read_same]
      · rw [if_neg (fun hmem => (List.mem_cons.mp hmem).elim hyo hyos),
          update_read_other _ _ _ _ hyo]

theorem destroy_eq (self : Nat) (g : Graph) :
    destroy self g =
      update (destroyPhase2 self g) self
        { destroyPhase2 self g self with inputs := [], outputs := [] } := rfl

theorem destroyPhase1_char (self : Nat) (g : Graph) (y : Nat) :
    destroyPhase1 self g y =
      if y ∈ (g self).outputs
      then { g y with inputs := (g y).inputs.filter (fun x => x ≠ self) }
      else g y :=
  filter_fold_inputs self ((g self).outputs) g y

theorem destroyPhase2_char (self : Nat) (g : Graph) (y : Nat) :
    destroyPhase2 self g y =
      if y ∈ (destroyPhase1 self g self).inputs
      then { destroyPhase1 self g y with
             outputs := (destroyPhase1 self g y).outputs.filter (fun x => x ≠ self) }
      else destroyPhase1 self g y :=
  filter_fold_outputs self ((destroyPhase1 self g self).inputs) (destroyPhase1 self g) y

theorem perm_snoc_cons {l l2 : List Nat} (b : Nat) (h : l.Perm l2) :
    (l ++ [b]).Perm (b :: l2) :=
  (List.perm_append_singleton b l).trans (h.cons b)

theorem GraphPerm.rfl (g : Graph) : GraphPerm g g :=
  fun _ => ⟨Eq.refl _, List.Perm.refl _, List.Perm.refl _⟩

theorem gp_update (c : Nat) (comp : Component) {g g2 : Graph} (hgp : GraphPerm g g2) :
    GraphPerm (update g c comp) (update g2 c comp) := by
  intro x
  by_cases hxc : x = c
  · rw [hxc, update_read_same, update_read_same]
    exact ⟨Eq.refl _, List.Perm.refl _, List.Perm.refl _⟩
  · rw [update_read_other _ _ _ _ hxc, update_read_other _ _ _ _ hxc]
    exact hgp x

theorem gp_addIn (a b : Nat) {g g2 : Graph} (hgp : GraphPerm g g2) :
    GraphPerm (addInput a b g) (addInputF a b g2) := by
  intro x
  rw [addInput_comp a b g x, addInputF_comp a b g2 x]
  refine ⟨(hgp x).1, ?_, ?_⟩
  · by_cases hxa : x = a
    · simp only [if_pos hxa]
      exact perm_snoc_cons b (hgp a).2.1
    · simp only [if_neg hxa]
      exact (hgp x).2.1
  · by_cases hxb : x = b
    · simp only [if_pos hxb]
      exact perm_snoc_cons a (hgp b).2.2
    · simp only [if_neg hxb]
      exact (hgp x).2.2

theorem gp_addOut (a b : Nat) {g g2 : Graph} (hgp : GraphPerm g g2) :
    GraphPerm (addOutput a b g) (addOutputF a b g2) := by
  intro x
  rw [addOutput_comp a b g x, addOutputF_comp a b g2 x]
  refine ⟨(hgp x).1, ?_, ?_⟩
  · by_cases hxb : x = b
    · simp only [if_pos hxb]
      exact perm_snoc_cons a (hgp b).2.1
    · simp only [if_neg hxb]
      exact (hgp x).2.1
  · by_cases hxa : x = a
    · simp only [if_pos hxa]
      exact perm_snoc_cons b (hgp a).2.2
    · simp only [if_neg hxa]
      exact (hgp x).2.2

theorem gp_remIn (a b : Nat) {g g2 : Graph} (hgp : GraphPerm g g2) :
    GraphPerm (removeInput a b g) (removeInput a b g2) := by
  intro x
  rw [removeInput_comp a b g x, removeInput_comp a b g2 x]
  refine ⟨(hgp x).1, ?_, ?_⟩
  · by_cases hxa : x = a
    · simp only [if_pos hxa]
      exact ((hgp a).2.1).filter _
    · simp only [if_neg hxa]
      exact (hgp x).2.1
  · by_cases hxb : x = b
    · simp only [if_pos hxb]
      exact ((hgp b).2.2).filter _
    · simp only [if_neg hxb]
      exact (hgp x).2.2

theorem gp_remOut (a b : Nat) {g g2 : Graph} (hgp : GraphPerm g g2) :
    GraphPerm (removeOutput a b g) (removeOutput a b g2) := by
  intro x
  rw [removeOutput_comp a b g x, removeOutput_comp a b g2 x]
  refine ⟨(hgp x).1, ?_, ?_⟩
  · by_cases hxb : x = b
    · simp only [if_pos hxb]
      exact ((hgp b).2.1).filter _
    · simp only [if_neg hxb]
      exact (hgp x).2.1
  · by_cases hxa : x = a
    · simp only [if_pos hxa]
      exact ((hgp a).2.2).filter _
    · simp only [if_neg hxa]
      exact (hgp x).2.2

theorem gp_destroy (s : Nat) {g g2 : Graph} (hgp : GraphPerm g g2) :
    GraphPerm (destroy s g) (destroy s g2) := by
  have h1 : GraphPerm (destroyPhase1 s g) (destroyPhase1 s g2) := by
    intro y
    rw [destroyPhase1_char, destroyPhase1_char]
    by_cases hy : y ∈ (g s).outputs
    · rw [if_pos hy, if_pos (((hgp s).2.2).mem_iff.mp hy)]
      exact ⟨(hgp y).1, ((hgp y).2.1).filter _, (hgp y).2.2⟩
    · rw [if_neg hy, if_neg (fun hc => hy (((hgp s).2.2).mem_iff.mpr hc))]
      exact hgp y
  have h2 : GraphPerm (destroyPhase2 s g) (destroyPhase2 s g2) := by
    intro y
    rw [destroyPhase2_char, destroyPhase2_char]
    by_cases hy : y ∈ (destroyPhase1 s g s).inputs
    · rw [if_pos hy, if_pos (((h1 s).2.1).mem_iff.mp hy)]
      exact ⟨(h1 y).1, (h1 y).2.1, ((h1 y).2.2).filter _⟩
    · rw [if_neg hy, if_neg (fun hc => hy (((h1 s).2.1).mem_iff.mpr hc))]
      exact h1 y
  rw [destroy_eq, destroy_eq]
  intro x
  by_cases hxs : x = s
  · rw [hxs, update_read_same, update_read_same]
    exact ⟨(h2 s).1, List.Perm.refl _, List.Perm.refl _⟩
  · rw [update_read_other _ _ _ _ hxs, update_read_other _ _ _ _ hxs]
    exact h2 x

theorem gp_replay_in (d : Nat) {xs xs2 : List Nat} {g g2 : Graph}
    (hxs : xs.Perm xs2) (hgp : GraphPerm g g2) :
    GraphPerm (xs.foldl (fun h s => addInput d s h) g)
      (xs2.foldl (fun h s => addInputF d s h) g2) := by
  intro y
  rw [replay_in_L d xs g y, replay_in_F d xs2 g2 y]
  refine ⟨(hgp y).1, ?_, ?_⟩
  · by_cases hyd : y = d
    · simp only [if_pos hyd]
      exact (((hgp d).2.1).append hxs).trans
        (List.perm_append_comm.trans
          (((List.reverse_perm xs2).symm).append (List.Perm.refl _)))
    · simp only [if_neg hyd]
      exact (hgp y).2.1
  · rw [hxs.count_eq y]
    exact (((hgp y).2.2).append (List.Perm.refl _)).trans List.perm_append_comm

theorem gp_replay_out (d : Nat) {ys ys2 : List Nat} {g g2 : Graph}
    (hys : ys.Perm ys2) (hgp : GraphPerm g g2) :
    GraphPerm (ys.foldl (fun h o => addOutput d o h) g)
      (ys2.foldl (fun h o => addOutputF d o h) g2) := by
  intro y
  rw [replay_out_L d ys g y, replay_out_F d ys2 g2 y]
  refine ⟨(hgp y).1, ?_, ?_⟩
  · rw [hys.count_eq y]
    exact (((hgp y).2.1).append (List.Perm.refl _)).trans List.perm_append_comm
  · by_cases hyd : y = d
    · simp only [if_pos hyd]
      exact (((hgp d).2.2).append hys).trans
        (List.perm_append_comm.trans
          (((List.reverse_perm ys2).symm).append (List.Perm.refl _)))
    · simp only [if_neg hyd]
      exact (hgp y).2.2

theorem gp_copy (dup : Bool) (d a : Nat) {g g2 : Graph} (hgp : GraphPerm g g2) :
    GraphPerm (copyComponent dup d a g) (copyComponentF dup d a g2) := by
  have h0 : GraphPerm (update g d defaultComponent) (update g2 d defaultComponent) :=
    gp_update d defaultComponent hgp
  have h1 : GraphPerm
      (((update g d defaultComponent) a).inputs.foldl
        (fun h s => addInput d s h) (update g d defaultComponent))
      (((update g2 d defaultComponent) a).inputs.foldl
        (fun h s => addInputF d s h) (update g2 d defaultComponent)) :=
    gp_replay_in d (h0 a).2.1 h0
  cases dup with
  | false => exact h1
  | true => exact gp_replay_out d (h1 a).2.2 h1

theorem gp_step (op : Op) {g g2 : Graph} (hgp : GraphPerm g g2) :
    GraphPerm (stepL op g) (stepF op g2) := by
  cases op with
  | create c W v => exact gp_update c (mkComponent W v) hgp
  | addIn a b => exact gp_addIn a b hgp
  | addOut a b => exact gp_addOut a b hgp
  | remIn a b => exact gp_remIn a b hgp
  | remOut a b => exact gp_remOut a b hgp
  | del a => exact gp_destroy a hgp
  | copy dup d a => exact gp_copy dup d a hgp

theorem gp_run :
    ∀ (ops : List Op) {g g2 : Graph}, GraphPerm g g2 →
      GraphPerm (runL ops g) (runF ops g2)
  | [], _, _, h => h
  | op :: ops, _, _, h => gp_run ops (gp_step op h)

theorem orInputs_perm {g g2 : Graph} (hgp : GraphPerm g g2) (c : Nat) :
    orInputs c g = orInputs c g2 := by
  rw [orInputs, orInputs, (hgp c).1,
    ← List.foldl_map (fun i => (g i).state) (fun s v => s ||| v),
    ← List.foldl_map (fun i => (g2 i).state) (fun s v => s ||| v)]
  have hmap : (((g c).inputs).map (fun i => (g i).state)).Perm
      (((g2 c).inputs).map (fun i => (g2 i).state)) := by
    rw [show ((g2 c).inputs).map (fun i => (g2 i).state)
        = ((g2 c).inputs).map (fun i => (g i).state) from
      List.map_congr_left (fun x _ => ((hgp x).1).symm)]
    exact ((hgp c).2.1).map _
  exact hmap.foldl_eq'
    (fun x _ y _ z => by rw [Nat.lor_assoc, Nat.lor_assoc, Nat.lor_comm x y]) _

theorem gp_aggregate (c : Nat) {g g2 : Graph} (hgp : GraphPerm g g2) :
    GraphPerm (aggregate c g) (aggregate c g2) := by
  rw [aggregate_eq, aggregate_eq]
  intro x
  by_cases hxc : x = c
  · rw [hxc, update_read_same, update_read_same]
    exact ⟨orInputs_perm hgp c, (hgp c).2.1, (hgp c).2.2⟩
  · rw [update_read_other _ _ _ _ hxc, update_read_other _ _ _ _ hxc]
    exact hgp x

/-! ### Terminating cascades agree on states across the variants

The cascade equivalence needs the bidirectional-consistency invariant I1
(`Symm`): every graph built through the connect/disconnect API satisfies
it, and without it the two visit orders can genuinely diverge (shown
concretely below in `cascade_needs_symm`).  The proof is a confluence
argument: a terminating run's states form a *closed point* (root stable,
every changed component's subscribers stable) and every terminating run
stays below every closed point, so any two terminating runs coincide. -/

/-- Both connection lists agree pointwise (propagation never edits them). -/
def ListsEq (g h : Graph) : Prop :=
  ∀ x, (g x).inputs = (h x).inputs ∧ (g x).outputs = (h x).outputs

/-- Component `z` is stable: ORing its inputs into it changes nothing. -/
def Stable (z : Nat) (h : Graph) : Prop :=
  orInputs z h = (h z).state

/-- `F` absorbs all of `y`'s inputs (stability of a bare state
assignment, lists read from `g0`). -/
def StableAssign (g0 : Graph) (F : Nat → Nat) (y : Nat) : Prop :=
  ∀ x ∈ (g0 y).inputs, F x ||| F y = F y

/-- A closed point of the cascade started by ticking `c` on `g0`: above
`g0`, stable at the root, and stable at every subscriber of every
component it moves. -/
def ClosedTick (g0 : Graph) (c : Nat) (F : Nat → Nat) : Prop :=
  (∀ x, (g0 x).state ||| F x = F x) ∧
  StableAssign g0 F c ∧
  (∀ x, F x ≠ (g0 x).state → ∀ z ∈ (g0 x).outputs, StableAssign g0 F z)

/-- A closed point of the cascade started by `emit()` on `c`: as
`ClosedTick` but with all of `c`'s subscribers stable instead of `c`. -/
def ClosedEmit (g0 : Graph) (c : Nat) (F : Nat → Nat) : Prop :=
  (∀ x, (g0 x).state ||| F x = F x) ∧
  (∀ z ∈ (g0 c).outputs, StableAssign g0 F z) ∧
  (∀ x, F x ≠ (g0 x).state → ∀ z ∈ (g0 x).outputs, StableAssign g0 F z)

theorem lor_le_trans {a b c : Nat} (hab : a ||| b = b) (hbc : b ||| c = c) :
    a ||| c = c := by
  rw [← hbc, ← Nat.lor_assoc, hab]

theorem lor_antisymm {a b : Nat} (hab : a ||| b = b) (hba : b ||| a = a) :
    a = b := by
  rw [← hba, Nat.lor_comm, hab]

theorem fold_mem_absorb (f : Nat → Nat) :
    ∀ (l : List Nat) (a x : Nat), x ∈ l →
      f x ||| l.foldl (fun s i => s ||| f i) a = l.foldl (fun s i => s ||| f i) a
  | [], _, _, hx => absurd hx (by simp)
  | i :: l, a, x, hx => by
    rcases List.mem_cons.mp hx with hxi | hxl
    · rw [List.foldl_cons, hxi]
      have habs := foldl_lor_absorb f l (a ||| f i)
      have h1 : f i ||| (a ||| f i) = a ||| f i := by ac_rfl
      exact lor_le_trans h1 habs
    · rw [List.foldl_cons]
      exact fold_mem_absorb f l (a ||| f i) x hxl

theorem fold_le (f : Nat → Nat) :
    ∀ (l : List Nat) (a t : Nat), a ||| t = t → (∀ x ∈ l, f x ||| t = t) →
      l.foldl (fun s i => s ||| f i) a ||| t = t
  | [], _, _, ha, _ => ha
  | i :: l, a, t, ha, hl => by
    rw [List.foldl_cons]
    refine fold_le f l (a ||| f i) t ?_ (fun x hx => hl x (List.mem_cons_of_mem i hx))
    rw [Nat.lor_assoc, hl i (List.mem_cons_self i l), ha]

theorem fold_const (f : Nat → Nat) (l : List Nat) (a : Nat)
    (hl : ∀ x ∈ l, f x ||| a = a) :
    l.foldl (fun s i => s ||| f i) a = a :=
  lor_antisymm (fold_le f l a a (Nat.or_self a) hl) (foldl_lor_absorb f l a)

theorem orInputs_member {g : Graph} {y x : Nat} (hx : x ∈ (g y).inputs) :
    (g x).state ||| orInputs y g = orInputs y g :=
  fold_mem_absorb (fun i => (g i).state) ((g y).inputs) ((g y).state) x hx

theorem orInputs_congr {g h : Graph} (z : Nat)
    (hin : (h z).inputs = (g z).inputs) (hst : (h z).state = (g z).state)
    (hmem : ∀ x ∈ (g z).inputs, (h x).state = (g x).state) :
    orInputs z h = orInputs z g := by
  rw [orInputs, orInputs, hin, hst]
  have : ∀ (l : List Nat) (a : Nat), (∀ x ∈ l, (h x).state = (g x).state) →
      l.foldl (fun s i => s ||| (h i).state) a = l.foldl (fun s i => s ||| (g i).state) a := by
    intro l
    induction l with
    | nil => intro a _; rfl
    | cons i l ih =>
      intro a hmem2
      rw [List.foldl_cons, List.foldl_cons, hmem2 i (List.mem_cons_self i l)]
      exact ih _ (fun x hx => hmem2 x (List.mem_cons_of_mem i hx))
  exact this _ _ hmem

theorem listsEq_refl (g : Graph) : ListsEq g g :=
  fun _ => ⟨rfl, rfl⟩

theorem listsEq_trans {g h k : Graph} (h1 : ListsEq g h) (h2 : ListsEq h k) :
    ListsEq g k :=
  fun x => ⟨(h1 x).1.trans (h2 x).1, (h1 x).2.trans (h2 x).2⟩

theorem aggregate_comp_other (y x : Nat) (g : Graph) (hxy : x ≠ y) :
    aggregate y g x = g x := by
  rw [aggregate_eq]
  exact update_read_other _ _ _ _ hxy

theorem aggregate_comp_self (y : Nat) (g : Graph) :
    aggregate y g y = { g y with state := orInputs y g } := by
  rw [aggregate_eq]
  exact update_read_same _ _ _

theorem aggregate_lists (y : Nat) (g : Graph) : ListsEq (aggregate y g) g := by
  intro x
  by_cases hxy : x = y
  · rw [hxy, aggregate_comp_self]
    exact ⟨rfl, rfl⟩
  · rw [aggregate_comp_other y x g hxy]
    exact ⟨rfl, rfl⟩

theorem emitLoop_lists (tk : Nat → Graph → Option (Graph × Nat))
    (htk : ∀ c g res, tk c g = some res → ListsEq res.1 g) :
    ∀ (os : List Nat) (g : Graph) (res : Graph × Nat),
      emitLoop tk os g = some res → ListsEq res.1 g
  | [], g, res => by
    intro h
    obtain rfl : (g, 0) = res := Option.some.inj h
    exact listsEq_refl g
  | o :: rest, g, res => by
    intro h
    simp only [emitLoop] at h
    split at h
    · exact absurd h (by simp)
    · rename_i g1 n htk1
      split at h
      · exact absurd h (by simp)
      · rename_i g2 m hrest
        obtain rfl : (g2, n + m) = res := Option.some.inj h
        exact listsEq_trans (emitLoop_lists tk htk rest g1 (g2, m) hrest)
          (htk o g (g1, n) htk1)

theorem tickF_lists :
    ∀ (fuel c : Nat) (g : Graph) (res : Graph × Nat),
      tickF fuel c g = some res → ListsEq res.1 g
  | 0, c, g, res => by
    intro h
    exact absurd h (by simp [tickF])
  | fuel + 1, c, g, res => by
    intro h
    simp only [tickF] at h
    by_cases hch : ((aggregate c g) c).state ≠ (g c).state
    · rw [if_pos hch] at h
      split at h
      · exact absurd h (by simp)
      · rename_i g2 n hloop
        obtain rfl : (g2, n + 1) = res := Option.some.inj h
        exact listsEq_trans
          (emitLoop_lists (tickF fuel) (tickF_lists fuel) _ _ (g2, n) hloop)
          (aggregate_lists c g)
    · rw [if_neg hch] at h
      obtain rfl : (aggregate c g, 0) = res := Option.some.inj h
      exact aggregate_lists c g

theorem symm_of_listsEq {g h : Graph} (hl : ListsEq h g) (hs : Symm g) : Symm h := by
  intro a b
  rw [(hl b).1, (hl a).2]
  exact hs a b

theorem symm_of_graphPerm {g g2 : Graph} (hgp : GraphPerm g g2) (hs : Symm g) :
    Symm g2 := by
  intro a b
  rw [← ((hgp b).2.1).mem_iff, ← ((hgp a).2.2).mem_iff]
  exact hs a b

theorem stable_aggregate_untouched (y z : Nat) (g : Graph)
    (hz : y ∉ (g z).inputs) (hzy : z ≠ y) (hs : Stable z g) :
    Stable z (aggregate y g) := by
  rw [Stable, aggregate_comp_other y z g hzy,
    orInputs_congr z (by rw [aggregate_comp_other y z g hzy])
      (by rw [aggregate_comp_other y z g hzy])
      (fun x hx => by rw [aggregate_comp_other y x g (fun hxy => hz (hxy ▸ hx))])]
  exact hs

theorem stable_aggregate_self_notin (y : Nat) (g : Graph)
    (hy : y ∉ (g y).inputs) : Stable y (aggregate y g) := by
  show orInputs y (aggregate y g) = (aggregate y g y).state
  rw [orInputs, show (aggregate y g y).inputs = (g y).inputs from (aggregate_lists y g y).1]
  refine fold_const _ _ _ ?_
  intro x hx
  rw [aggregate_comp_other y x g (fun hxy => hy (hxy ▸ hx)),
    show (aggregate y g y).state = orInputs y g from by rw [aggregate_comp_self]]
  exact orInputs_member hx

/-- The `emit()` loop establishes and preserves stability: provided every
tick does, a completed loop (a) keeps every stable component stable, (b)
leaves every visited subscriber stable, and (c) leaves the subscribers of
every component it changed stable. -/
theorem emitLoop_stability_of (tk : Nat → Graph → Option (Graph × Nat))
    (htkL : ∀ c g res, tk c g = some res → ListsEq res.1 g)
    (htkS : ∀ (c : Nat) (g : Graph) (res : Graph × Nat), Symm g →
      tk c g = some res →
      (∀ z, Stable z g → Stable z res.1) ∧ Stable c res.1 ∧
      (∀ x, (res.1 x).state ≠ (g x).state → ∀ z ∈ (g x).outputs, Stable z res.1)) :
    ∀ (os : List Nat) (g : Graph) (res : Graph × Nat), Symm g →
      emitLoop tk os g = some res →
      (∀ z, Stable z g → Stable z res.1) ∧ (∀ z ∈ os, Stable z res.1) ∧
      (∀ x, (res.1 x).state ≠ (g x).state → ∀ z ∈ (g x).outputs, Stable z res.1)
  | [], g, res => by
    intro _ h
    obtain rfl : (g, 0) = res := Option.some.inj h
    exact ⟨fun z hz => hz, by simp, fun x hx => absurd rfl hx⟩
  | o :: rest, g, res => by
    intro hsym h
    simp only [emitLoop] at h
    split at h
    · exact absurd h (by simp)
    · rename_i g1 n htk1
      split at h
      · exact absurd h (by simp)
      · rename_i g2 m hrest
        obtain rfl : (g2, n + m) = res := Option.some.inj h
        have hl1 : ListsEq g1 g := htkL o g (g1, n) htk1
        have hsym1 : Symm g1 := symm_of_listsEq hl1 hsym
        have H1 := htkS o g (g1, n) hsym htk1
        have H2 := emitLoop_stability_of tk htkL htkS rest g1 (g2, m) hsym1 hrest
        refine ⟨?_, ?_, ?_⟩
        · intro z hz
          exact H2.1 z (H1.1 z hz)
        · intro z hz
          rcases List.mem_cons.mp hz with hzo | hzr
          · rw [hzo]
            exact H2.1 o H1.2.1
          · exact H2.2.1 z hzr
        · intro x hx
          by_cases hx1 : (g1 x).state = (g x).state
          · have hx2 : (g2 x).state ≠ (g1 x).state := by
              rw [hx1]
              exact hx
            intro z hz
            exact H2.2.2 x hx2 z (by rw [(hl1 x).2]; exact hz)
          · intro z hz
            exact H2.1 z (H1.2.2 x hx1 z hz)

/-- A completed `tick()` call on a bidirectionally consistent graph keeps
every stable component stable, leaves the ticked component stable, and
leaves the subscribers of every component it changed stable: symmetry
guarantees that whenever an input of `z` grows, `z` itself is re-ticked
before the cascade returns. -/
theorem stability_invariant :
    ∀ (fuel y : Nat) (g : Graph) (res : Graph × Nat), Symm g →
      tickF fuel y g = some res →
      (∀ z, Stable z g → Stable z res.1) ∧ Stable y res.1 ∧
      (∀ x, (res.1 x).state ≠ (g x).state → ∀ z ∈ (g x).outputs, Stable z res.1)
  | 0, y, g, res => by
    intro _ h
    exact absurd h (by simp [tickF])
  | fuel + 1, y, g, res => by
    intro hsym h
    simp only [tickF] at h
    by_cases hch : ((aggregate y g) y).state ≠ (g y).state
    · rw [if_pos hch] at h
      split at h
      · exact absurd h (by simp)
      · rename_i g2 n hloop
        obtain rfl : (g2, n + 1) = res := Option.some.inj h
        have hsym1 : Symm (aggregate y g) := symm_of_listsEq (aggregate_lists y g) hsym
        have HL := emitLoop_stability_of (tickF fuel) (tickF_lists fuel)
          (stability_invariant fuel) ((aggregate y g y).outputs) (aggregate y g)
          (g2, n) hsym1 hloop
        have hos : (aggregate y g y).outputs = (g y).outputs := (aggregate_lists y g y).2
        refine ⟨?_, ?_, ?_⟩
        · intro z hz
          by_cases hzo : z ∈ (g y).outputs
          · exact HL.2.1 z (by rw [hos]; exact hzo)
          · have hyz : y ∉ (g z).inputs := fun hc => hzo ((hsym y z).mp hc)
            by_cases hzy : z = y
            · rw [hzy]
              exact HL.1 y (stable_aggregate_self_notin y g (hzy ▸ hyz))
            · exact HL.1 z (stable_aggregate_untouched y z g hyz hzy hz)
        · by_cases hyo : y ∈ (g y).outputs
          · exact HL.2.1 y (by rw [hos]; exact hyo)
          · have hyy : y ∉ (g y).inputs := fun hc => hyo ((hsym y y).mp hc)
            exact HL.1 y (stable_aggregate_self_notin y g hyy)
        · intro x hx
          by_cases hxy : x = y
          · rw [hxy]
            intro z hz
            exact HL.2.1 z (by rw [hos]; exact hz)
          · have hx2 : (g2 x).state ≠ (aggregate y g x).state := by
              rw [aggregate_comp_other y x g hxy]
              exact hx
            intro z hz
            exact HL.2.2 x hx2 z (by rw [(aggregate_lists y g x).2]; exact hz)
    · rw [if_neg hch] at h
      obtain rfl : (aggregate y g, 0) = res := Option.some.inj h
      have h1 : (aggregate y g y).state = (g y).state := not_not.mp hch
      rw [aggregate_comp_self] at h1
      have hagg : aggregate y g = g := by
        rw [aggregate_eq, show orInputs y g = (g y).state from h1]
        exact update_self g y
      rw [hagg]
      exact ⟨fun z hz => hz, h1, fun x hx => absurd rfl hx⟩

/-- The `emit()` loop never overshoots a closed point: if each visited
subscriber is stable in `F` and every tick stays below `F`, the loop stays
below `F`. -/
theorem emitLoop_le_of (g0 : Graph) (F : Nat → Nat)
    (tk : Nat → Graph → Option (Graph × Nat))
    (htkM : ∀ c g res, tk c g = some res → stateLe g res.1)
    (htkL : ∀ c g res, tk c g = some res → ListsEq res.1 g)
    (htkLe : ∀ (c : Nat) (g : Graph) (res : Graph × Nat), tk c g = some res →
      ListsEq g g0 → (∀ x, (g0 x).state ||| (g x).state = (g x).state) →
      (∀ x, (g x).state ||| F x = F x) → StableAssign g0 F c →
      ∀ x, (res.1 x).state ||| F x = F x) :
    ∀ (os : List Nat) (g : Graph) (res : Graph × Nat),
      emitLoop tk os g = some res → ListsEq g g0 →
      (∀ x, (g0 x).state ||| (g x).state = (g x).state) →
      (∀ x, (g x).state ||| F x = F x) →
      (∀ z ∈ os, StableAssign g0 F z) →
      ∀ x, (res.1 x).state ||| F x = F x
  | [], g, res => by
    intro h _ _ hle _
    obtain rfl : (g, 0) = res := Option.some.inj h
    exact hle
  | o :: rest, g, res => by
    intro h hlists hge0 hle hos
    simp only [emitLoop] at h
    split at h
    · exact absurd h (by simp)
    · rename_i g1 n htk1
      split at h
      · exact absurd h (by simp)
      · rename_i g2 m hrest
        obtain rfl : (g2, n + m) = res := Option.some.inj h
        have hm := htkM o g (g1, n) htk1
        have hge0' : ∀ x, (g0 x).state ||| (g1 x).state = (g1 x).state :=
          fun x => lor_le_trans (hge0 x) (hm x)
        have hlists' : ListsEq g1 g0 := listsEq_trans (htkL o g (g1, n) htk1) hlists
        have hle' := htkLe o g (g1, n) htk1 hlists hge0 hle (hos o (List.mem_cons_self o rest))
        exact emitLoop_le_of g0 F tk htkM htkL htkLe rest g1 (g2, m) hrest hlists'
          hge0' hle' (fun z hz => hos z (List.mem_cons_of_mem o hz))

/-- A completed `tick()` never overshoots a closed point `F` that is
stable at the ticked component: the aggregation stays below `F`, and if
the component changed, `F` moved it too, so `F` is stable at all its
subscribers and the recursive emissions stay below `F` as well. -/
theorem tickF_le (g0 : Graph) (F : Nat → Nat)
    (hcl3 : ∀ x, F x ≠ (g0 x).state → ∀ z ∈ (g0 x).outputs, StableAssign g0 F z) :
    ∀ (fuel y : Nat) (g : Graph) (res : Graph × Nat),
      tickF fuel y g = some res → ListsEq g g0 →
      (∀ x, (g0 x).state ||| (g x).state = (g x).state) →
      (∀ x, (g x).state ||| F x = F x) →
      StableAssign g0 F y →
      ∀ x, (res.1 x).state ||| F x = F x
  | 0, y, g, res => by
    intro h
    exact absurd h (by simp [tickF])
  | fuel + 1, y, g, res => by
    intro h hlists hge0 hle hstab
    simp only [tickF] at h
    by_cases hch : ((aggregate y g) y).state ≠ (g y).state
    · rw [if_pos hch] at h
      split at h
      · exact absurd h (by simp)
      · rename_i g2 n hloop
        obtain rfl : (g2, n + 1) = res := Option.some.inj h
        have hg1state : (aggregate y g y).state = orInputs y g := by
          rw [aggregate_comp_self]
        have hg1le : ∀ x, (aggregate y g x).state ||| F x = F x := by
          intro x
          by_cases hxy : x = y
          · rw [hxy, hg1state, orInputs]
            refine fold_le _ _ _ _ (hle y) ?_
            intro i hi
            have hi0 : i ∈ (g0 y).inputs := by
              rw [← (hlists y).1]
              exact hi
            exact lor_le_trans (hle i) (hstab i hi0)
          · rw [aggregate_comp_other y x g hxy]
            exact hle x
        have hg1ge0 : ∀ x, (g0 x).state ||| (aggregate y g x).state
            = (aggregate y g x).state := by
          intro x
          by_cases hxy : x = y
          · rw [hxy, hg1state]
            exact lor_le_trans (hge0 y) (orInputs_absorb y g)
          · rw [aggregate_comp_other y x g hxy]
            exact hge0 x
        have hFy : F y ≠ (g0 y).state := by
          intro heq
          apply hch
          have h1 : (g y).state = (g0 y).state :=
            lor_antisymm (by rw [← heq]; exact hle y) (hge0 y)
          have h2 : orInputs y g ||| (g y).state = (g y).state := by
            rw [h1, ← heq]
            have h3 := hg1le y
            rw [hg1state] at h3
            exact h3
          rw [hg1state]
          exact lor_antisymm h2 (orInputs_absorb y g)
        have hjust : ∀ z ∈ (aggregate y g y).outputs, StableAssign g0 F z := by
          intro z hz
          refine hcl3 y hFy z ?_
          rw [← (hlists y).2, ← (aggregate_lists y g y).2]
          exact hz
        exact emitLoop_le_of g0 F (tickF fuel) (tickF_mono fuel) (tickF_lists fuel)
          (tickF_le g0 F hcl3 fuel) _ _ (g2, n) hloop
          (listsEq_trans (aggregate_lists y g) hlists) hg1ge0 hg1le hjust
    · rw [if_neg hch] at h
      obtain rfl : (aggregate y g, 0) = res := Option.some.inj h
      intro x
      have h1 : (aggregate y g y).state = (g y).state := not_not.mp hch
      rw [aggregate_comp_self] at h1
      have hagg : aggregate y g = g := by
        rw [aggregate_eq, show orInputs y g = (g y).state from h1]
        exact update_self g y
      rw [hagg]
      exact hle x

theorem gp_symm {g g2 : Graph} (h : GraphPerm g g2) : GraphPerm g2 g :=
  fun x => ⟨((h x).1).symm, ((h x).2.1).symm, ((h x).2.2).symm⟩

theorem stable_to_assign {h g0 : Graph} (hl : ListsEq h g0) (z : Nat)
    (hz : Stable z h) : StableAssign g0 (fun x => (h x).state) z := by
  intro w hw
  have hw2 : w ∈ (h z).inputs := by
    rw [(hl z).1]
    exact hw
  have hmem := orInputs_member (g := h) hw2
  rw [show orInputs z h = (h z).state from hz] at hmem
  exact hmem

/-- A terminating `tick()` run on a symmetric graph yields a closed point
of the tick cascade. -/
theorem run_closed_tick (fuel c : Nat) (g gL : Graph) (n : Nat) (hsym : Symm g)
    (h : tickF fuel c g = some (gL, n)) :
    ClosedTick g c (fun x => (gL x).state) := by
  have hS := stability_invariant fuel c g (gL, n) hsym h
  have hlists : ListsEq gL g := tickF_lists fuel c g (gL, n) h
  exact ⟨fun x => tickF_mono fuel c g (gL, n) h x,
    stable_to_assign hlists c hS.2.1,
    fun x hx z hz => stable_to_assign hlists z (hS.2.2 x hx z hz)⟩

/-- A terminating `emit()` run on a symmetric graph yields a closed point
of the emit cascade. -/
theorem run_closed_emit (fuel c : Nat) (g gL : Graph) (n : Nat) (hsym : Symm g)
    (h : emitF fuel c g = some (gL, n)) :
    ClosedEmit g c (fun x => (gL x).state) := by
  simp only [emitF, goEmit] at h
  split at h
  · exact absurd h (by simp)
  · rename_i gmid m hloop
    rw [show gmid = gL from congrArg Prod.fst (Option.some.inj h)] at hloop
    have hS := emitLoop_stability_of (tickF fuel) (tickF_lists fuel)
      (stability_invariant fuel) ((g c).outputs) g (gL, m) hsym hloop
    have hlists : ListsEq gL g :=
      emitLoop_lists (tickF fuel) (tickF_lists fuel) ((g c).outputs) g (gL, m) hloop
    exact ⟨fun x => emitLoop_mono (tickF fuel) (tickF_mono fuel)
        ((g c).outputs) g (gL, m) hloop x,
      fun z hz => stable_to_assign hlists z (hS.2.1 z hz),
      fun x hx z hz => stable_to_assign hlists z (hS.2.2 x hx z hz)⟩

theorem closedTick_perm {g g2 : Graph} (hgp : GraphPerm g g2) (c : Nat)
    (F : Nat → Nat) (hcl : ClosedTick g2 c F) : ClosedTick g c F := by
  obtain ⟨h1, h2, h3⟩ := hcl
  refine ⟨?_, ?_, ?_⟩
  · intro x
    rw [(hgp x).1]
    exact h1 x
  · intro x hx
    exact h2 x (((hgp c).2.1).mem_iff.mp hx)
  · intro x hx z hz w hw
    exact h3 x (by rw [← (hgp x).1]; exact hx) z (((hgp x).2.2).mem_iff.mp hz)
      w (((hgp z).2.1).mem_iff.mp hw)

theorem closedEmit_perm {g g2 : Graph} (hgp : GraphPerm g g2) (c : Nat)
    (F : Nat → Nat) (hcl : ClosedEmit g2 c F) : ClosedEmit g c F := by
  obtain ⟨h1, h2, h3⟩ := hcl
  refine ⟨?_, ?_, ?_⟩
  · intro x
    rw [(hgp x).1]
    exact h1 x
  · intro z hz w hw
    exact h2 z (((hgp c).2.2).mem_iff.mp hz) w (((hgp z).2.1).mem_iff.mp hw)
  · intro x hx z hz w hw
    exact h3 x (by rw [← (hgp x).1]; exact hx) z (((hgp x).2.2).mem_iff.mp hz)
      w (((hgp z).2.1).mem_iff.mp hw)

/-- Confluence of tick cascades across the two variants: on bidirectionally
consistent order-equivalent graphs, any two terminating `tick()` cascades
from the same component end with identical states. -/
theorem cascade_tick_confluent {fuel fuel2 c : Nat} {g g2 gL gF : Graph}
    {n n2 : Nat} (hsym : Symm g) (hgp : GraphPerm g g2)
    (hL : tickF fuel c g = some (gL, n)) (hF : tickF fuel2 c g2 = some (gF, n2)) :
    ∀ x, (gL x).state = (gF x).state := by
  have hsym2 : Symm g2 := symm_of_graphPerm hgp hsym
  have hclL : ClosedTick g c (fun x => (gL x).state) :=
    run_closed_tick fuel c g gL n hsym hL
  have hclF : ClosedTick g c (fun x => (gF x).state) :=
    closedTick_perm hgp c _ (run_closed_tick fuel2 c g2 gF n2 hsym2 hF)
  have hclL2 : ClosedTick g2 c (fun x => (gL x).state) :=
    closedTick_perm (gp_symm hgp) c _ hclL
  have hLle : ∀ x, (gL x).state ||| (gF x).state = (gF x).state :=
    tickF_le g (fun x => (gF x).state) hclF.2.2 fuel c g (gL, n) hL (listsEq_refl g)
      (fun x => Nat.or_self _) (fun x => hclF.1 x) hclF.2.1
  have hFle : ∀ x, (gF x).state ||| (gL x).state = (gL x).state :=
    tickF_le g2 (fun x => (gL x).state) hclL2.2.2 fuel2 c g2 (gF, n2) hF
      (listsEq_refl g2) (fun x => Nat.or_self _) (fun x => hclL2.1 x) hclL2.2.1
  exact fun x => lor_antisymm (hLle x) (hFle x)

/-- Confluence of emit cascades across the two variants. -/
theorem cascade_emit_confluent {fuel fuel2 c : Nat} {g g2 gL gF : Graph}
    {n n2 : Nat} (hsym : Symm g) (hgp : GraphPerm g g2)
    (hL : emitF fuel c g = some (gL, n)) (hF : emitF fuel2 c g2 = some (gF, n2)) :
    ∀ x, (gL x).state = (gF x).state := by
  have hsym2 : Symm g2 := symm_of_graphPerm hgp hsym
  have hclL : ClosedEmit g c (fun x => (gL x).state) :=
    run_closed_emit fuel c g gL n hsym hL
  have hclF : ClosedEmit g c (fun x => (gF x).state) :=
    closedEmit_perm hgp c _ (run_closed_emit fuel2 c g2 gF n2 hsym2 hF)
  have hclL2 : ClosedEmit g2 c (fun x => (gL x).state) :=
    closedEmit_perm (gp_symm hgp) c _ hclL
  simp only [emitF, goEmit] at hL hF
  split at hL
  · exact absurd hL (by simp)
  · rename_i gmidL mL hloopL
    rw [show gmidL = gL from congrArg Prod.fst (Option.some.inj hL)] at hloopL
    split at hF
    · exact absurd hF (by simp)
    · rename_i gmidF mF hloopF
      rw [show gmidF = gF from congrArg Prod.fst (Option.some.inj hF)] at hloopF
      have hLle : ∀ x, (gL x).state ||| (gF x).state = (gF x).state :=
        emitLoop_le_of g (fun x => (gF x).state) (tickF fuel) (tickF_mono fuel)
          (tickF_lists fuel) (tickF_le g (fun x => (gF x).state) hclF.2.2 fuel)
          ((g c).outputs) g (gL, mL) hloopL (listsEq_refl g)
          (fun x => Nat.or_self _) (fun x => hclF.1 x) hclF.2.1
      have hFle : ∀ x, (gF x).state ||| (gL x).state = (gL x).state :=
        emitLoop_le_of g2 (fun x => (gL x).state) (tickF fuel2) (tickF_mono fuel2)
          (tickF_lists fuel2) (tickF_le g2 (fun x => (gL x).state) hclL2.2.2 fuel2)
          ((g2 c).outputs) g2 (gF, mF) hloopF (listsEq_refl g2)
          (fun x => Nat.or_self _) (fun x => hclL2.1 x) hclL2.2.1
      exact fun x => lor_antisymm (hLle x) (hFle x)

theorem emitF_lists (fuel c : Nat) (g gL : Graph) (n : Nat)
    (h : emitF fuel c g = some (gL, n)) : ListsEq gL g := by
  simp only [emitF, goEmit] at h
  split at h
  · exact absurd h (by simp)
  · rename_i gmid m hloop
    rw [show gmid = gL from congrArg Prod.fst (Option.some.inj h)] at hloop
    exact emitLoop_lists (tickF fuel) (tickF_lists fuel) ((g c).outputs) g (gL, m) hloop

/-- An asymmetric graph (id 3 reads id 2 without being subscribed to it)
on which the two visit orders genuinely diverge: identical up to the order
of id 0's outputs, yet the cascades end with different states at id 3.
This is why the cascade equivalence below assumes the I1 invariant, which
every graph built through the connect/disconnect API satisfies. -/
def gAsymL : Graph := fun i =>
  if i = 0 then ⟨1, [], [1, 3]⟩
  else if i = 1 then ⟨2, [0], [2]⟩
  else if i = 2 then ⟨0, [1], []⟩
  else if i = 3 then ⟨0, [0, 2], []⟩
  else defaultComponent

/-- `gAsymL` with id 0's outputs in the `forward_list` order. -/
def gAsymF : Graph := fun i =>
  if i = 0 then ⟨1, [], [3, 1]⟩
  else if i = 1 then ⟨2, [0], [2]⟩
  else if i = 2 then ⟨0, [1], []⟩
  else if i = 3 then ⟨0, [0, 2], []⟩
  else defaultComponent

/-- Without bidirectional consistency the cascades are order-dependent:
the same `emit()` on order-equivalent graphs ends with state 3 at id 3 in
one visit order and state 1 in the other. -/
theorem cascade_needs_symm :
    GraphPerm gAsymL gAsymF ∧
    (∃ g n, emitF 5 0 gAsymL = some (g, n) ∧ (g 3).state = 3) ∧
    (∃ g n, emitF 5 0 gAsymF = some (g, n) ∧ (g 3).state = 1) := by
  refine ⟨?_, ⟨_, _, rfl, rfl⟩, ⟨_, _, rfl, rfl⟩⟩
  intro x
  rcases x with _ | _ | _ | _ | x
  · exact ⟨rfl, by decide, by decide⟩
  · exact ⟨rfl, by decide, by decide⟩
  · exact ⟨rfl, by decide, by decide⟩
  · exact ⟨rfl, by decide, by decide⟩
  · exact ⟨rfl, List.Perm.refl _, List.Perm.refl _⟩

theorem gCycle_eval :
    ∀ x, gCycle x = if x = 0 then ⟨1, [1], [1]⟩
      else if x = 1 then ⟨2, [0], [0]⟩ else defaultComponent := by
  intro x
  rcases x with _ | _ | x <;> rfl

theorem symm_gCycle : Symm gCycle := by
  intro a b
  rw [gCycle_eval a, gCycle_eval b]
  by_cases ha0 : a = 0 <;> by_cases ha1 : a = 1 <;>
    by_cases hb0 : b = 0 <;> by_cases hb1 : b = 1 <;>
    simp [ha0, ha1, hb0, hb1, defaultComponent]

/-- C9 counterexample: two `addInput` calls applied identically give input
list `[1, 2]` in the `std::list` variant (push_back) but `[2, 1]` in the
`forward_list` variant (push_front), so the observable connection lists do
not coincide as ordered lists. -/
theorem c9_counterexample_edge_list_order_differs :
    (addInput 0 2 (addInput 0 1 emptyHeap) 0).inputs = [1, 2] ∧
    (addInputF 0 2 (addInputF 0 1 emptyHeap) 0).inputs = [2, 1] ∧
    (addInput 0 2 (addInput 0 1 emptyHeap) 0).inputs ≠
      (addInputF 0 2 (addInputF 0 1 emptyHeap) 0).inputs :=
  ⟨rfl, rfl, by decide⟩

/-- C9 (amended): the two variants are functionally identical up to
edge-list order.  Every sequence of construction, connect, disconnect,
destruction and copy operations applied identically to order-equivalent
heaps yields order-equivalent heaps (equal states, permutation-equal edge
lists); and on bidirectionally consistent (invariant I1) order-equivalent
graphs — which is what those operations build — any terminating `tick()`
or `emit()` cascade started at the same component produces *identical*
states in both variants and again order-equivalent graphs, propagation
never touching the connection lists. -/
theorem c9_amended_variants_agree_up_to_order :
    (∀ (ops : List Op) (g g2 : Graph), GraphPerm g g2 →
      GraphPerm (runL ops g) (runF ops g2)) ∧
    (∀ (fuel fuel2 c : Nat) (g g2 gL gF : Graph) (n n2 : Nat),
      Symm g → GraphPerm g g2 →
      tickF fuel c g = some (gL, n) → tickF fuel2 c g2 = some (gF, n2) →
      (∀ x, (gL x).state = (gF x).state) ∧ GraphPerm gL gF) ∧
    (∀ (fuel fuel2 c : Nat) (g g2 gL gF : Graph) (n n2 : Nat),
      Symm g → GraphPerm g g2 →
      emitF fuel c g = some (gL, n) → emitF fuel2 c g2 = some (gF, n2) →
      (∀ x, (gL x).state = (gF x).state) ∧ GraphPerm gL gF) := by
  refine ⟨fun ops g g2 h => gp_run ops h, ?_, ?_⟩
  · intro fuel fuel2 c g g2 gL gF n n2 hsym hgp hL hF
    have hst := cascade_tick_confluent hsym hgp hL hF
    refine ⟨hst, fun x => ⟨hst x, ?_, ?_⟩⟩
    · rw [(tickF_lists fuel c g (gL, n) hL x).1,
        (tickF_lists fuel2 c g2 (gF, n2) hF x).1]
      exact (hgp x).2.1
    · rw [(tickF_lists fuel c g (gL, n) hL x).2,
        (tickF_lists fuel2 c g2 (gF, n2) hF x).2]
      exact (hgp x).2.2
  · intro fuel fuel2 c g g2 gL gF n n2 hsym hgp hL hF
    have hst := cascade_emit_confluent hsym hgp hL hF
    refine ⟨hst, fun x => ⟨hst x, ?_, ?_⟩⟩
    · rw [(emitF_lists fuel c g gL n hL x).1, (emitF_lists fuel2 c g2 gF n2 hF x).1]
      exact (hgp x).2.1
    · rw [(emitF_lists fuel c g gL n hL x).2, (emitF_lists fuel2 c g2 gF n2 hF x).2]
      exact (hgp x).2.2

/-- Witness for the amended C9: two full tick cascades on the symmetric
cycle scenario (run with different fuel budgets, standing in for the two
variants' different visit orders) end with identical states. -/
theorem c9_witness :
    ∃ gL n gF n2, tickF 5 0 gCycle = some (gL, n) ∧
      tickF 6 0 gCycle = some (gF, n2) ∧ ∀ x, (gL x).state = (gF x).state :=
  ⟨_, _, _, _, rfl, rfl,
    (c9_amended_variants_agree_up_to_order.2.1 5 6 0 gCycle gCycle _ _ _ _
      symm_gCycle (GraphPerm.rfl gCycle) rfl rfl).1⟩

end Synchrotron
